import Mathlib

/-!
# Session manager of go-bitswap: registry, identifier allocation, dispatch

Shallow embedding of `sessionmanager/sessionmanager.go`.

* Interface values (`Session`, `bssession.PeerManager`) are elements of types `S` and `PM`
  with decidable equality, which is what Go's `==` on the `sesTrk` struct compares.
* `uint64` is `Nat` reduced modulo `2 ^ 64`.
* The slice `sm.sessions` is a `List`; the two mutexes serialise the critical sections, so
  every operation is a function from the state before to the state after. For
  `GetNextSessionID` the mutex is also modelled itself: `Concurrent` interleaves the
  statements of any number of callers.
* The watcher goroutine is the function `watcher`; `watcher.run` spells out its loop, its
  `select` and its deferred call.
* Calls that leave the package (the two factories, `Session.ReceiveBlockFrom`) are recorded
  in the value returned by the operation that makes them. A factory is a function of the
  arguments it is called with.
* The sessions have a state `W` of their own. The two methods the dispatcher calls on them,
  `InterestedIn` and `ReceiveBlockFrom`, read and change that state (`SessionMethods`), so the
  answer of a session may change while a dispatch runs, for instance after a delivery.
-/

set_option autoImplicit false

namespace sessionmanager

/-! ## Data model -/

/-- Size of the `uint64` value space. -/
def uint64Size : Nat := 2 ^ 64

/-- Model of `context.Context` as far as this package uses it: a context is either given from
outside or derived from a parent by `context.WithCancel`. -/
inductive Context where
  | external (name : Nat)
  | withCancel (parent : Context)
  deriving DecidableEq, Repr

/-- The context returned by `context.WithCancel(ctx)`. -/
def Context.WithCancel (ctx : Context) : Context := Context.withCancel ctx

/-- The struct `sesTrk`: a session together with its peer manager. Go compares two values of
it field by field. -/
structure sesTrk (S PM : Type) where
  session : S
  pm : PM
  deriving DecidableEq, Repr

/-- The type `SessionFactory`. -/
abbrev SessionFactory (S PM : Type) := Context → Nat → PM → S

/-- The type `PeerManagerFactory`. -/
abbrev PeerManagerFactory (PM : Type) := Context → Nat → PM

/-- The struct `SessionManager`, without its two mutexes. -/
structure SessionManager (S PM : Type) where
  ctx : Context
  sessionFactory : SessionFactory S PM
  peerManagerFactory : PeerManagerFactory PM
  sessions : List (sesTrk S PM)
  sessID : Nat

/-- One call `session.ReceiveBlockFrom(from, blk)` made by the dispatcher. -/
structure Delivery (S Peer Block : Type) where
  session : S
  frm : Peer
  blk : Block
  deriving DecidableEq, Repr

/-- The methods of the interface `Session` that the dispatcher calls, as functions on the state
`W` of the sessions: `InterestedIn` gives its answer and the state it leaves behind,
`ReceiveBlockFrom` the state it leaves behind. -/
structure SessionMethods (S Peer Block Cid W : Type) where
  InterestedIn : W → S → Cid → Bool × W
  ReceiveBlockFrom : W → S → Peer → Block → W

/-- One call `session.InterestedIn(k)` made by the dispatcher, with the answer it got. -/
structure Question (S Cid : Type) where
  session : S
  k : Cid
  answer : Bool
  deriving DecidableEq, Repr

/-- The calls a dispatch has made on the sessions so far, in order, and the state of the
sessions. -/
structure Dispatch (S Peer Block Cid W : Type) where
  asked : List (Question S Cid)
  deliveries : List (Delivery S Peer Block)
  world : W

/-- What `ReceiveBlockFrom` has done when it returns: the questions it asked, the deliveries it
made, the state of the sessions, and the manager. -/
structure Dispatched (S PM Peer Block Cid W : Type) where
  asked : List (Question S Cid)
  deliveries : List (Delivery S Peer Block)
  world : W
  sm : SessionManager S PM

/-- The calls `NewSession` makes to the factories, in the order it makes them. -/
inductive FactoryCall (PM : Type) where
  | peerManagerFactory (ctx : Context) (id : Nat)
  | sessionFactory (ctx : Context) (id : Nat) (pm : PM)
  deriving DecidableEq, Repr

/-- The two receive cases of the watcher's `select`. -/
inductive Signal where
  | smCtxDone
  | ctxDone
  deriving DecidableEq, Repr

/-- What `NewSession` produces: the handle it returns, the identifier it allocated, the entry
captured by the watcher goroutine, the factory calls made, and the manager afterwards. -/
structure NewSessionResult (S PM : Type) where
  fetcher : S
  id : Nat
  tracked : sesTrk S PM
  calls : List (FactoryCall PM)
  sm : SessionManager S PM

section Operations

variable {S PM Peer Block Cid W : Type}

/-! ## Operations -/

/-- The function `New`: the zero value for the collection and the counter. -/
def New (ctx : Context) (sessionFactory : SessionFactory S PM)
    (peerManagerFactory : PeerManagerFactory PM) : SessionManager S PM :=
  { ctx := ctx
    sessionFactory := sessionFactory
    peerManagerFactory := peerManagerFactory
    sessions := []
    sessID := 0 }

/-- The method `GetNextSessionID`: `sm.sessID++` on a `uint64`, then return it. -/
def GetNextSessionID (sm : SessionManager S PM) : Nat × SessionManager S PM :=
  let sm1 := { sm with sessID := (sm.sessID + 1) % uint64Size }
  (sm1.sessID, sm1)

/-- The loop of `removeSession`, entered at index `i` with `n` iterations left before
`i < len(sm.sessions)` fails. -/
def removeSession.scan [DecidableEq S] [DecidableEq PM] (sessions : List (sesTrk S PM))
    (session : sesTrk S PM) : Nat → Nat → List (sesTrk S PM)
  | 0, _ => sessions
  | n + 1, i =>
    if sessions[i]? = some session then
      (sessions.set i ((sessions[sessions.length - 1]?).getD session)).take (sessions.length - 1)
    else
      removeSession.scan sessions session n (i + 1)

/-- The method `removeSession`. -/
def removeSession [DecidableEq S] [DecidableEq PM] (sm : SessionManager S PM)
    (session : sesTrk S PM) : SessionManager S PM :=
  { sm with sessions := removeSession.scan sm.sessions session sm.sessions.length 0 }

/-- The method `NewSession`, up to the start of the watcher goroutine. -/
def NewSession (sm : SessionManager S PM) (ctx : Context) : NewSessionResult S PM :=
  let (id, sm1) := GetNextSessionID sm
  let sessionctx := ctx.WithCancel
  let pm := sm1.peerManagerFactory sessionctx id
  let session := sm1.sessionFactory sessionctx id pm
  let tracked : sesTrk S PM := { session := session, pm := pm }
  { fetcher := session
    id := id
    tracked := tracked
    calls := [FactoryCall.peerManagerFactory sessionctx id,
              FactoryCall.sessionFactory sessionctx id pm]
    sm := { sm1 with sessions := sm1.sessions ++ [tracked] } }

/-- The watcher goroutine started by `NewSession`, once one of its two signals has fired. -/
def watcher [DecidableEq S] [DecidableEq PM] (sm : SessionManager S PM)
    (tracked : sesTrk S PM) : Signal → SessionManager S PM
  | Signal.smCtxDone => removeSession sm tracked
  | Signal.ctxDone => removeSession sm tracked

/-- The loop of `ReceiveBlockFrom` over the remaining entries. Each entry is asked
`s.session.InterestedIn(k)` in the state the sessions are in when the loop reaches it, that is
after every earlier question and delivery; on the answer true it is called with
`s.session.ReceiveBlockFrom(from, blk)`. -/
def ReceiveBlockFrom.range (methods : SessionMethods S Peer Block Cid W) (frm : Peer)
    (blk : Block) (k : Cid) :
    List (sesTrk S PM) → Dispatch S Peer Block Cid W → Dispatch S Peer Block Cid W
  | [], st => st
  | s :: rest, st =>
    let a := methods.InterestedIn st.world s.session k
    let st1 : Dispatch S Peer Block Cid W :=
      { st with
        asked := st.asked ++ [{ session := s.session, k := k, answer := a.1 }]
        world := a.2 }
    if a.1 then
      ReceiveBlockFrom.range methods frm blk k rest
        { st1 with
          deliveries := st1.deliveries ++ [{ session := s.session, frm := frm, blk := blk }]
          world := methods.ReceiveBlockFrom st1.world s.session frm blk }
    else
      ReceiveBlockFrom.range methods frm blk k rest st1

/-- The method `ReceiveBlockFrom`, called while the sessions are in state `w`: the calls it
makes on the sessions, in order, the state it leaves them in, and the manager afterwards.
`BlockCid` is the method `Cid()` of the block. -/
def ReceiveBlockFrom (methods : SessionMethods S Peer Block Cid W) (BlockCid : Block → Cid)
    (w : W) (sm : SessionManager S PM) (frm : Peer) (blk : Block) :
    Dispatched S PM Peer Block Cid W :=
  let k := BlockCid blk
  let st := ReceiveBlockFrom.range methods frm blk k sm.sessions
    { asked := [], deliveries := [], world := w }
  { asked := st.asked, deliveries := st.deliveries, world := st.world, sm := sm }

/-- Successive calls of `GetNextSessionID` by one caller: the identifiers returned, in call
order, and the manager afterwards. -/
def GetNextSessionID.times : Nat → SessionManager S PM → List Nat × SessionManager S PM
  | 0, sm => ([], sm)
  | n + 1, sm =>
    let (id, sm1) := GetNextSessionID sm
    let (ids, sm2) := GetNextSessionID.times n sm1
    (id :: ids, sm2)

/-- The manager's global signal fires and the watchers of the entries in `order` run one after
the other, in that order. -/
def globalCancel [DecidableEq S] [DecidableEq PM] (sm : SessionManager S PM)
    (order : List (sesTrk S PM)) : SessionManager S PM :=
  order.foldl (fun m tracked => watcher m tracked Signal.smCtxDone) sm

/-! ## Histories of operations

A history runs operations of one manager one after the other and keeps, next to the manager,
a record of what happened: the identifiers handed out, the entries built by `NewSession`, the
arguments of the `removeSession` calls, the deliveries, and for each entry of the collection
the identifier it was created for. -/

/-- An entry of the collection together with the identifier `NewSession` allocated for it. The
identifier is bookkeeping of the history; the code does not store it. -/
structure Tagged (S PM : Type) where
  id : Nat
  trk : sesTrk S PM

/-- The loop of `removeSession` on entries that carry their identifier: the comparison
`sm.sessions[i] == session` looks at the `sesTrk` value only. -/
def removeSession.scanTagged [DecidableEq S] [DecidableEq PM] (sessions : List (Tagged S PM))
    (session : sesTrk S PM) : Nat → Nat → List (Tagged S PM)
  | 0, _ => sessions
  | n + 1, i =>
    if (sessions[i]?).map Tagged.trk = some session then
      (sessions.set i ((sessions[sessions.length - 1]?).getD { id := 0, trk := session })).take
        (sessions.length - 1)
    else
      removeSession.scanTagged sessions session n (i + 1)

/-- One call of a method of the manager. A dispatch carries the sessions as they are when it
runs: their methods and their state. -/
inductive Op (S PM Peer Block Cid W : Type) where
  | NewSession (ctx : Context)
  | removeSession (session : sesTrk S PM)
  | ReceiveBlockFrom (methods : SessionMethods S Peer Block Cid W) (w : W) (frm : Peer)
      (blk : Block)
  | GetNextSessionID

/-- A manager together with the record of the operations run on it so far. -/
structure History (S PM Peer Block : Type) where
  sm : SessionManager S PM
  ids : List Nat
  created : List (sesTrk S PM)
  removed : List (sesTrk S PM)
  delivered : List (Delivery S Peer Block)
  tagged : List (Tagged S PM)

/-- The history of a manager on which nothing has run yet. -/
def History.start (sm : SessionManager S PM) : History S PM Peer Block :=
  { sm := sm, ids := [], created := [], removed := [], delivered := [], tagged := [] }

/-- Run one operation. -/
def History.step [DecidableEq S] [DecidableEq PM] (BlockCid : Block → Cid)
    (h : History S PM Peer Block) : Op S PM Peer Block Cid W → History S PM Peer Block
  | Op.NewSession ctx =>
    let r := NewSession h.sm ctx
    { h with
      sm := r.sm
      ids := h.ids ++ [r.id]
      created := h.created ++ [r.tracked]
      tagged := h.tagged ++ [{ id := r.id, trk := r.tracked }] }
  | Op.removeSession session =>
    { h with
      sm := removeSession h.sm session
      removed := h.removed ++ [session]
      tagged := removeSession.scanTagged h.tagged session h.tagged.length 0 }
  | Op.ReceiveBlockFrom methods w frm blk =>
    let r := ReceiveBlockFrom methods BlockCid w h.sm frm blk
    { h with sm := r.sm, delivered := h.delivered ++ r.deliveries }
  | Op.GetNextSessionID =>
    let r := GetNextSessionID h.sm
    { h with sm := r.2, ids := h.ids ++ [r.1] }

/-- Run a sequence of operations, first to last. -/
def History.run [DecidableEq S] [DecidableEq PM] (BlockCid : Block → Cid)
    (ops : List (Op S PM Peer Block Cid W)) (h : History S PM Peer Block) :
    History S PM Peer Block :=
  ops.foldl (History.step BlockCid) h

/-- Number of operations of a sequence that allocate an identifier. -/
def allocations : List (Op S PM Peer Block Cid W) → Nat
  | [] => 0
  | Op.NewSession _ :: ops => allocations ops + 1
  | Op.GetNextSessionID :: ops => allocations ops + 1
  | _ :: ops => allocations ops

/-- Number of `NewSession` calls in a sequence. -/
def countNewSession : List (Op S PM Peer Block Cid W) → Nat
  | [] => 0
  | Op.NewSession _ :: ops => countNewSession ops + 1
  | _ :: ops => countNewSession ops

/-- Number of `removeSession` calls in a sequence. -/
def countRemoveSession : List (Op S PM Peer Block Cid W) → Nat
  | [] => 0
  | Op.removeSession _ :: ops => countRemoveSession ops + 1
  | _ :: ops => countRemoveSession ops

/-- Every `removeSession` of the sequence is the one removal made by the watcher of a session
created before it: its argument has been built by `NewSession` more often than it has been
passed to `removeSession` so far. -/
def watcherDriven [DecidableEq S] [DecidableEq PM] (BlockCid : Block → Cid) :
    History S PM Peer Block → List (Op S PM Peer Block Cid W) → Bool
  | _, [] => true
  | h, Op.removeSession session :: ops =>
    decide (h.removed.count session < h.created.count session) &&
      watcherDriven BlockCid
        (h.step BlockCid (Op.removeSession session : Op S PM Peer Block Cid W)) ops
  | h, op :: ops => watcherDriven BlockCid (h.step BlockCid op) ops

/-- The bookkeeping of a history is balanced: every entry built so far is either still in the
collection or has been removed, counted with multiplicity. -/
def History.Balanced [DecidableEq S] [DecidableEq PM] (h : History S PM Peer Block) : Prop :=
  (∀ a, h.sm.sessions.count a + h.removed.count a = h.created.count a) ∧
    h.sm.sessions.length + h.removed.length = h.created.length

/-! ## The watcher goroutine, step by step -/

/-- What the goroutine started by `NewSession` closes over: the entry `tracked`, the `cancel`
function of the derived context `sessionctx`, and the context `ctx` given to `NewSession`. -/
structure WatcherClosure (S PM : Type) where
  tracked : sesTrk S PM
  sessionctx : Context
  ctx : Context

/-- The goroutine `NewSession` starts. -/
def NewSession.closure (sm : SessionManager S PM) (ctx : Context) : WatcherClosure S PM :=
  { tracked := (NewSession sm ctx).tracked, sessionctx := ctx.WithCancel, ctx := ctx }

/-- The things the goroutine does, in the order it does them. -/
inductive WatcherAction (S PM : Type) where
  | deferCancel (sessionctx : Context)
  | receive (sig : Signal)
  | removeSession (session : sesTrk S PM)
  | cancel (sessionctx : Context)
  deriving DecidableEq, Repr

/-- The goroutine while it runs: the manager, the deferred `cancel` calls not yet run (latest
first), what it has done so far, and how often the body of its `for` loop has been entered. -/
structure WatcherState (S PM : Type) where
  sm : SessionManager S PM
  deferred : List Context
  trace : List (WatcherAction S PM)
  iterations : Nat

/-- One pass through the body of the `for` loop, with the `select` receiving `sig`: the state
afterwards, and whether the pass ended in `return`. -/
def watcher.body [DecidableEq S] [DecidableEq PM] (w : WatcherClosure S PM)
    (st : WatcherState S PM) (sig : Signal) : WatcherState S PM × Bool :=
  let st1 : WatcherState S PM :=
    { st with
      deferred := w.sessionctx :: st.deferred
      trace := st.trace ++ [WatcherAction.deferCancel w.sessionctx]
      iterations := st.iterations + 1 }
  match sig with
  | Signal.smCtxDone =>
    ({ st1 with
       sm := removeSession st1.sm w.tracked
       trace := st1.trace ++
         [WatcherAction.receive Signal.smCtxDone, WatcherAction.removeSession w.tracked] },
     true)
  | Signal.ctxDone =>
    ({ st1 with
       sm := removeSession st1.sm w.tracked
       trace := st1.trace ++
         [WatcherAction.receive Signal.ctxDone, WatcherAction.removeSession w.tracked] },
     true)

/-- The goroutine returns: the deferred calls run, latest first. -/
def watcher.runDeferred (st : WatcherState S PM) : WatcherState S PM :=
  { st with deferred := [], trace := st.trace ++ st.deferred.map WatcherAction.cancel }

/-- The `for` loop of the goroutine. `signals k` is what the `select` receives in pass `k`;
`fuel` bounds the number of passes. -/
def watcher.loop [DecidableEq S] [DecidableEq PM] (w : WatcherClosure S PM)
    (signals : Nat → Signal) : Nat → WatcherState S PM → Option (WatcherState S PM)
  | 0, _ => none
  | fuel + 1, st =>
    let r := watcher.body w st (signals st.iterations)
    if r.2 then some (watcher.runDeferred r.1) else watcher.loop w signals fuel r.1

/-- The goroutine from its start, on the manager as it is when the `select` fires. -/
def watcher.run [DecidableEq S] [DecidableEq PM] (w : WatcherClosure S PM)
    (signals : Nat → Signal) (fuel : Nat) (sm : SessionManager S PM) :
    Option (WatcherState S PM) :=
  watcher.loop w signals fuel { sm := sm, deferred := [], trace := [], iterations := 0 }

/-! ## Concurrent callers of `GetNextSessionID`

Callers run the body of `GetNextSessionID` one statement at a time, interleaved by a schedule.
The mutex `sessIDLk` is a flag: `Lock` goes through only when the flag is down and raises it,
`Unlock` lowers it. -/

/-- Where a caller stands in `GetNextSessionID`: before `sm.sessIDLk.Lock()`, before the read
and before the write of `sm.sessID++`, before the evaluation of `return sm.sessID`, before the
deferred `sm.sessIDLk.Unlock()`, and after the call has returned. -/
inductive GetNextSessionID.PC where
  | lock
  | load
  | store
  | result
  | unlock
  | returned
  deriving DecidableEq, Repr

/-- One caller: its position, the value it read for the increment, the value it returns, and
its ticket, the number of the lock acquisition that let it in (bookkeeping, not in the code). -/
structure Caller where
  pc : GetNextSessionID.PC
  tmp : Nat
  ret : Nat
  ticket : Nat
  deriving DecidableEq, Repr

/-- A manager with callers inside `GetNextSessionID`: the manager, the state of the mutex
`sessIDLk`, the callers by number, and how often the mutex has been acquired (bookkeeping). -/
structure Concurrent (S PM : Type) where
  sm : SessionManager S PM
  sessIDLk : Bool
  callers : Nat → Caller
  acquired : Nat

/-- Every caller is about to call `GetNextSessionID` and the mutex is free. -/
def Concurrent.start (sm : SessionManager S PM) : Concurrent S PM :=
  { sm := sm
    sessIDLk := false
    callers := fun _ => { pc := GetNextSessionID.PC.lock, tmp := 0, ret := 0, ticket := 0 }
    acquired := 0 }

/-- Caller `t` runs its next statement. A caller waiting for the mutex, or one that has
returned, does nothing. -/
def Concurrent.step (c : Concurrent S PM) (t : Nat) : Concurrent S PM :=
  match (c.callers t).pc with
  | GetNextSessionID.PC.lock =>
    if c.sessIDLk then c
    else
      { c with
        sessIDLk := true
        acquired := c.acquired + 1
        callers := Function.update c.callers t
          { c.callers t with pc := GetNextSessionID.PC.load, ticket := c.acquired + 1 } }
  | GetNextSessionID.PC.load =>
    { c with
      callers := Function.update c.callers t
        { c.callers t with pc := GetNextSessionID.PC.store, tmp := c.sm.sessID } }
  | GetNextSessionID.PC.store =>
    { c with
      sm := { c.sm with sessID := ((c.callers t).tmp + 1) % uint64Size }
      callers := Function.update c.callers t
        { c.callers t with pc := GetNextSessionID.PC.result } }
  | GetNextSessionID.PC.result =>
    { c with
      callers := Function.update c.callers t
        { c.callers t with pc := GetNextSessionID.PC.unlock, ret := c.sm.sessID } }
  | GetNextSessionID.PC.unlock =>
    { c with
      sessIDLk := false
      callers := Function.update c.callers t
        { c.callers t with pc := GetNextSessionID.PC.returned } }
  | GetNextSessionID.PC.returned => c

/-- The callers run in the order of the schedule, one statement per entry. -/
def Concurrent.run (schedule : List Nat) (c : Concurrent S PM) : Concurrent S PM :=
  schedule.foldl Concurrent.step c

/-- The schedule in which the callers `0, ..., n - 1` run one after the other, each from its
`Lock` to its return. -/
def soloSchedule : Nat → List Nat
  | 0 => []
  | n + 1 => soloSchedule n ++ List.replicate 5 n

/-- What holds of the callers whenever they have run from `Concurrent.start` on a manager with
counter `b`: a caller between `Lock` and `Unlock` holds the mutex and the latest ticket, the
counter is `b` plus the number of completed increments, returned values are `b` plus the
ticket, and tickets are pairwise different. All sums are modulo `2 ^ 64`; before the first
write the counter is only known modulo `2 ^ 64`. -/
structure Concurrent.Inv (b : Nat) (c : Concurrent S PM) : Prop where
  locked : ∀ t, (c.callers t).pc ≠ GetNextSessionID.PC.lock →
    (c.callers t).pc ≠ GetNextSessionID.PC.returned → c.sessIDLk = true
  free : c.sessIDLk = false → c.sm.sessID % uint64Size = (b + c.acquired) % uint64Size
  atLoad : ∀ t, (c.callers t).pc = GetNextSessionID.PC.load →
    (c.callers t).ticket = c.acquired ∧
      c.sm.sessID % uint64Size = (b + (c.acquired - 1)) % uint64Size
  atStore : ∀ t, (c.callers t).pc = GetNextSessionID.PC.store →
    (c.callers t).ticket = c.acquired ∧
      (c.callers t).tmp % uint64Size = (b + (c.acquired - 1)) % uint64Size
  atResult : ∀ t, (c.callers t).pc = GetNextSessionID.PC.result →
    (c.callers t).ticket = c.acquired ∧ c.sm.sessID = (b + c.acquired) % uint64Size
  atUnlock : ∀ t, (c.callers t).pc = GetNextSessionID.PC.unlock →
    (c.callers t).ticket = c.acquired ∧ (c.callers t).ret = (b + c.acquired) % uint64Size ∧
      c.sm.sessID = (b + c.acquired) % uint64Size
  atReturned : ∀ t, (c.callers t).pc = GetNextSessionID.PC.returned →
    (c.callers t).ret = (b + (c.callers t).ticket) % uint64Size
  bound : ∀ t, (c.callers t).pc ≠ GetNextSessionID.PC.lock →
    1 ≤ (c.callers t).ticket ∧ (c.callers t).ticket ≤ c.acquired
  distinct : ∀ t u, t ≠ u → (c.callers t).pc ≠ GetNextSessionID.PC.lock →
    (c.callers u).pc ≠ GetNextSessionID.PC.lock → (c.callers t).ticket ≠ (c.callers u).ticket

end Operations

/-! ## A concrete manager

Two sessions `A` and `B`, interested in the identifiers `X` and `Y`, as in the scenario of the
specification; peer managers are numbered by the session identifier. -/

/-- Session handles of the example. -/
inductive DemoSession where
  | A
  | B
  | C
  deriving DecidableEq, Repr

/-- Content identifiers of the example. -/
inductive DemoCid where
  | X
  | Y
  deriving DecidableEq, Repr

/-- Peers of the example. -/
inductive DemoPeer where
  | P1
  | P2
  deriving DecidableEq, Repr

/-- Blocks of the example: an identifier and a payload. -/
structure DemoBlock where
  cid : DemoCid
  payload : Nat
  deriving DecidableEq, Repr

/-- Peer managers of the example are their session identifier. -/
def demoPeerManagerFactory : PeerManagerFactory Nat := fun _ id => id

/-- The first session built is `A`, the second `B`, every later one `C`. -/
def demoSessionFactory : SessionFactory DemoSession Nat := fun _ id _ =>
  if id = 1 then DemoSession.A else if id = 2 then DemoSession.B else DemoSession.C

/-- In the example `A` wants `X` and `B` wants `Y`. -/
def demoInterestedIn : DemoSession → DemoCid → Bool
  | DemoSession.A, DemoCid.X => true
  | DemoSession.B, DemoCid.Y => true
  | _, _ => false

/-- The state of the example sessions: what each of them wants. -/
abbrev DemoWants := DemoSession → DemoCid → Bool

/-- The example sessions answer `InterestedIn` from their wants and drop a want when the block
is delivered to them. -/
def demoMethods : SessionMethods DemoSession DemoPeer DemoBlock DemoCid DemoWants :=
  { InterestedIn := fun wants s k => (wants s k, wants)
    ReceiveBlockFrom := fun wants s _ blk =>
      fun s1 k1 => if s1 = s ∧ k1 = blk.cid then false else wants s1 k1 }

/-- The example manager, fresh from `New`. -/
def demoManager : SessionManager DemoSession Nat :=
  New (Context.external 0) demoSessionFactory demoPeerManagerFactory

/-- A factory that hands the same session to every caller. -/
def sharedSessionFactory : SessionFactory DemoSession Nat := fun _ _ _ => DemoSession.A

/-- The entry of session `A` with peer manager `n`. -/
def entryA (n : Nat) : sesTrk DemoSession Nat := { session := DemoSession.A, pm := n }

/-- The entry of session `B` with peer manager `n`. -/
def entryB (n : Nat) : sesTrk DemoSession Nat := { session := DemoSession.B, pm := n }

/-- A sequence of operations on the example manager: create `A`, dispatch `X`, create `B`,
remove `A`, allocate an identifier, create a third session. -/
def demoOps : List (Op DemoSession Nat DemoPeer DemoBlock DemoCid DemoWants) :=
  [Op.NewSession (Context.external 1),
   Op.ReceiveBlockFrom demoMethods demoInterestedIn DemoPeer.P1
     { cid := DemoCid.X, payload := 0 },
   Op.NewSession (Context.external 2),
   Op.removeSession (entryA 1),
   Op.GetNextSessionID,
   Op.NewSession (Context.external 3)]

/-- The example manager with the given collection and counter. -/
def demoManagerWith (sessions : List (sesTrk DemoSession Nat)) (sessID : Nat) :
    SessionManager DemoSession Nat :=
  { demoManager with sessions := sessions, sessID := sessID }


section Theorems

variable {S PM Peer Block Cid W : Type}

/-! ## The removal scan -/

/-- An entry that occurs in the collection has a first index. -/
theorem exists_first_index [DecidableEq S] [DecidableEq PM] (l : List (sesTrk S PM))
    (e : sesTrk S PM) (h : e ∈ l) :
    ∃ i : Nat, i < l.length ∧ l[i]? = some e ∧ ∀ j, j < i → l[j]? ≠ some e := by
  have hex : ∃ i : Nat, l[i]? = some e := List.mem_iff_getElem?.mp h
  refine ⟨Nat.find hex, ?_, Nat.find_spec hex, fun j hj => Nat.find_min hex hj⟩
  by_contra hlen
  have := Nat.find_spec hex
  rw [List.getElem?_eq_none (Nat.le_of_not_lt hlen)] at this
  exact Option.noConfusion this

/-- The scan leaves a collection without a matching entry as it is. -/
theorem scan_of_not_mem [DecidableEq S] [DecidableEq PM] (l : List (sesTrk S PM))
    (e : sesTrk S PM) (h : e ∉ l) (n i : Nat) : removeSession.scan l e n i = l := by
  induction n generalizing i with
  | zero => rfl
  | succ n ih =>
    have hne : l[i]? ≠ some e := fun hc => h (List.getElem?_mem hc)
    simp only [removeSession.scan, hne, if_false]
    exact ih (i + 1)

/-- The scan stops at the first matching index and swap-removes there. -/
theorem scan_of_first [DecidableEq S] [DecidableEq PM] (l : List (sesTrk S PM))
    (e : sesTrk S PM) (i : Nat) (hi : l[i]? = some e) (hmin : ∀ j, j < i → l[j]? ≠ some e)
    (n k : Nat) (hk : k ≤ i) (hn : i < k + n) :
    removeSession.scan l e n k =
      (l.set i ((l[l.length - 1]?).getD e)).take (l.length - 1) := by
  induction n generalizing k with
  | zero => omega
  | succ n ih =>
    by_cases hki : k = i
    · subst hki
      simp only [removeSession.scan, hi, if_true]
    · have hlt : k < i := Nat.lt_of_le_of_ne hk hki
      simp only [removeSession.scan, hmin k hlt, if_false]
      exact ih (k + 1) hlt (by omega)

/-- Putting the removed entry back in front of a swap-removed list gives the entries of the
original list. -/
theorem cons_swapRemove_perm {α : Type} (l : List α) (e d : α) (i : Nat) (hi : l[i]? = some e) :
    List.Perm (e :: (l.set i ((l[l.length - 1]?).getD d)).take (l.length - 1)) l := by
  induction l generalizing i with
  | nil => simp at hi
  | cons x t ih =>
    cases t with
    | nil =>
      cases i with
      | zero =>
        simp at hi
        subst hi
        simp
      | succ j => simp at hi
    | cons y t =>
      have hlen : (x :: y :: t).length - 1 = (y :: t).length - 1 + 1 := by simp
      have hlast : (x :: y :: t)[(x :: y :: t).length - 1]? = (y :: t)[(y :: t).length - 1]? := by
        rw [hlen, List.getElem?_cons_succ]
      rw [hlast, hlen]
      cases i with
      | zero =>
        simp only [List.getElem?_cons_zero, Option.some.injEq] at hi
        subst hi
        rw [List.set_cons_zero, List.take_succ_cons, ← List.dropLast_eq_take]
        refine List.Perm.cons _ ?_
        have hl : (y :: t).getLast? = some ((y :: t).getLast (List.cons_ne_nil y t)) :=
          List.getLast?_eq_getLast _ _
        rw [← List.getLast?_eq_getElem?, hl, Option.getD_some]
        have hd := List.dropLast_append_getLast (List.cons_ne_nil y t)
        conv_rhs => rw [← hd]
        exact (List.perm_append_singleton _ _).symm
      | succ j =>
        rw [List.getElem?_cons_succ] at hi
        rw [List.set_cons_succ, List.take_succ_cons]
        exact (List.Perm.swap x e _).trans (List.Perm.cons x (ih j hi))

/-- On a collection without the entry, `removeSession` changes nothing. -/
theorem removeSession_sessions_of_not_mem [DecidableEq S] [DecidableEq PM]
    (sm : SessionManager S PM) (e : sesTrk S PM) (h : e ∉ sm.sessions) :
    (removeSession sm e).sessions = sm.sessions :=
  scan_of_not_mem sm.sessions e h _ _

/-- On a collection with the entry, `removeSession` leaves the entries of the collection with
one occurrence of the entry erased. -/
theorem removeSession_sessions_perm [DecidableEq S] [DecidableEq PM]
    (sm : SessionManager S PM) (e : sesTrk S PM) (h : e ∈ sm.sessions) :
    List.Perm (removeSession sm e).sessions (sm.sessions.erase e) := by
  obtain ⟨i, hlt, hi, hmin⟩ := exists_first_index sm.sessions e h
  have hshape : (removeSession sm e).sessions =
      (sm.sessions.set i ((sm.sessions[sm.sessions.length - 1]?).getD e)).take
        (sm.sessions.length - 1) :=
    scan_of_first sm.sessions e i hi hmin sm.sessions.length 0 (Nat.zero_le i) (by omega)
  rw [hshape]
  have h1 := cons_swapRemove_perm sm.sessions e e i hi
  have h2 := List.perm_cons_erase h
  exact List.Perm.cons_inv (h1.trans h2)

/-! ## The dispatch loop -/

/-- The loop adds one question per remaining entry, in order, and one delivery for each of
these questions that was answered with true. -/
theorem range_calls (methods : SessionMethods S Peer Block Cid W) (frm : Peer) (blk : Block)
    (k : Cid) (l : List (sesTrk S PM)) (st : Dispatch S Peer Block Cid W) :
    ∃ qs : List (Question S Cid),
      (ReceiveBlockFrom.range methods frm blk k l st).asked = st.asked ++ qs ∧
        (ReceiveBlockFrom.range methods frm blk k l st).deliveries =
          st.deliveries ++ (qs.filter (fun q => q.answer)).map
            (fun q => { session := q.session, frm := frm, blk := blk }) ∧
        qs.map (fun q => (q.session, q.k)) = l.map (fun s => (s.session, k)) := by
  induction l generalizing st with
  | nil => exact ⟨[], by simp [ReceiveBlockFrom.range], by simp [ReceiveBlockFrom.range], rfl⟩
  | cons s rest ih =>
    by_cases ha : (methods.InterestedIn st.world s.session k).1 = true
    · obtain ⟨qs, h1, h2, h3⟩ := ih
        { asked := st.asked ++ [{ session := s.session, k := k, answer := true }]
          deliveries := st.deliveries ++ [{ session := s.session, frm := frm, blk := blk }]
          world := methods.ReceiveBlockFrom (methods.InterestedIn st.world s.session k).2
            s.session frm blk }
      refine ⟨{ session := s.session, k := k, answer := true } :: qs, ?_, ?_, ?_⟩
      · simp only [ReceiveBlockFrom.range, ha, if_true]
        rw [h1, List.append_assoc, List.singleton_append]
      · simp only [ReceiveBlockFrom.range, ha, if_true]
        rw [h2]
        simp
      · simp only [List.map_cons, h3]
    · have hf : (methods.InterestedIn st.world s.session k).1 = false := by
        simpa using ha
      obtain ⟨qs, h1, h2, h3⟩ := ih
        { asked := st.asked ++ [{ session := s.session, k := k, answer := false }]
          deliveries := st.deliveries
          world := (methods.InterestedIn st.world s.session k).2 }
      refine ⟨{ session := s.session, k := k, answer := false } :: qs, ?_, ?_, ?_⟩
      · simp only [ReceiveBlockFrom.range, hf, Bool.false_eq_true, if_false]
        rw [h1, List.append_assoc, List.singleton_append]
      · simp only [ReceiveBlockFrom.range, hf, Bool.false_eq_true, if_false]
        rw [h2]
        simp
      · simp only [List.map_cons, h3]

/-- When the answers for `k` do not depend on the state of the sessions, the loop delivers to
the entries whose session answers true. -/
theorem range_deliveries_of_stable (methods : SessionMethods S Peer Block Cid W) (frm : Peer)
    (blk : Block) (k : Cid) (I : S → Bool)
    (hI : ∀ v s, (methods.InterestedIn v s k).1 = I s) (l : List (sesTrk S PM))
    (st : Dispatch S Peer Block Cid W) :
    (ReceiveBlockFrom.range methods frm blk k l st).deliveries =
      st.deliveries ++ (l.filter (fun s => I s.session)).map
        (fun s => { session := s.session, frm := frm, blk := blk }) := by
  induction l generalizing st with
  | nil => simp [ReceiveBlockFrom.range]
  | cons s rest ih =>
    by_cases ha : I s.session = true
    · simp only [ReceiveBlockFrom.range, hI, ha, if_true, ih, List.filter_cons_of_pos,
        List.map_cons, List.append_assoc, List.singleton_append]
    · have hf : I s.session = false := by simpa using ha
      simp only [ReceiveBlockFrom.range, hI, hf, Bool.false_eq_true, if_false, ih,
        List.filter_cons_of_neg, not_false_eq_true]

/-- The questions and deliveries of a dispatch: every entry is asked once, in collection order,
and the deliveries are the questions answered with true. -/
theorem ReceiveBlockFrom_calls (methods : SessionMethods S Peer Block Cid W)
    (BlockCid : Block → Cid) (w : W) (sm : SessionManager S PM) (frm : Peer) (blk : Block) :
    (ReceiveBlockFrom methods BlockCid w sm frm blk).asked.map (fun q => (q.session, q.k)) =
        sm.sessions.map (fun s => (s.session, BlockCid blk)) ∧
      (ReceiveBlockFrom methods BlockCid w sm frm blk).deliveries =
        ((ReceiveBlockFrom methods BlockCid w sm frm blk).asked.filter
          (fun q => q.answer)).map
          (fun q => { session := q.session, frm := frm, blk := blk }) := by
  obtain ⟨qs, h1, h2, h3⟩ := range_calls methods frm blk (BlockCid blk) sm.sessions
    { asked := [], deliveries := [], world := w }
  simp only [List.nil_append] at h1 h2
  constructor
  · show (ReceiveBlockFrom.range methods frm blk (BlockCid blk) sm.sessions
        { asked := [], deliveries := [], world := w }).asked.map (fun q => (q.session, q.k)) = _
    rw [h1, h3]
  · show (ReceiveBlockFrom.range methods frm blk (BlockCid blk) sm.sessions
        { asked := [], deliveries := [], world := w }).deliveries =
      ((ReceiveBlockFrom.range methods frm blk (BlockCid blk) sm.sessions
        { asked := [], deliveries := [], world := w }).asked.filter (fun q => q.answer)).map _
    rw [h2, h1]

/-- The deliveries of a dispatch when the answers do not depend on the state of the
sessions. -/
theorem ReceiveBlockFrom_deliveries_of_stable (methods : SessionMethods S Peer Block Cid W)
    (BlockCid : Block → Cid) (w : W) (sm : SessionManager S PM) (frm : Peer) (blk : Block)
    (I : S → Bool) (hI : ∀ v s, (methods.InterestedIn v s (BlockCid blk)).1 = I s) :
    (ReceiveBlockFrom methods BlockCid w sm frm blk).deliveries =
      (sm.sessions.filter (fun s => I s.session)).map
        (fun s => { session := s.session, frm := frm, blk := blk }) := by
  have h := range_deliveries_of_stable methods frm blk (BlockCid blk) I hI sm.sessions
    { asked := [], deliveries := [], world := w }
  simpa only [List.nil_append] using h

/-- Every delivery of a dispatch goes to the session of a tracked entry, with the peer and the
block of the dispatch. -/
theorem ReceiveBlockFrom_delivery_mem (methods : SessionMethods S Peer Block Cid W)
    (BlockCid : Block → Cid) (w : W) (sm : SessionManager S PM) (frm : Peer) (blk : Block)
    (d : Delivery S Peer Block)
    (hd : d ∈ (ReceiveBlockFrom methods BlockCid w sm frm blk).deliveries) :
    (∃ s ∈ sm.sessions, s.session = d.session) ∧ d.frm = frm ∧ d.blk = blk := by
  obtain ⟨hasked, hdel⟩ := ReceiveBlockFrom_calls methods BlockCid w sm frm blk
  rw [hdel] at hd
  obtain ⟨q, hq, rfl⟩ := List.mem_map.mp hd
  have hq1 : (q.session, q.k) ∈
      (ReceiveBlockFrom methods BlockCid w sm frm blk).asked.map (fun q => (q.session, q.k)) :=
    List.mem_map_of_mem _ (List.mem_of_mem_filter hq)
  rw [hasked] at hq1
  obtain ⟨s, hs, hsq⟩ := List.mem_map.mp hq1
  exact ⟨⟨s, hs, congrArg Prod.fst hsq⟩, rfl, rfl⟩

/-- The loop started with calls already made adds to them what it does when started with
none, from the same state of the sessions. -/
theorem range_acc (methods : SessionMethods S Peer Block Cid W) (frm : Peer) (blk : Block)
    (k : Cid) (l : List (sesTrk S PM)) (st : Dispatch S Peer Block Cid W) :
    (ReceiveBlockFrom.range methods frm blk k l st).asked =
        st.asked ++ (ReceiveBlockFrom.range methods frm blk k l
          { asked := [], deliveries := [], world := st.world }).asked ∧
      (ReceiveBlockFrom.range methods frm blk k l st).deliveries =
        st.deliveries ++ (ReceiveBlockFrom.range methods frm blk k l
          { asked := [], deliveries := [], world := st.world }).deliveries ∧
      (ReceiveBlockFrom.range methods frm blk k l st).world =
        (ReceiveBlockFrom.range methods frm blk k l
          { asked := [], deliveries := [], world := st.world }).world := by
  induction l generalizing st with
  | nil => simp [ReceiveBlockFrom.range]
  | cons s rest ih =>
    by_cases ha : (methods.InterestedIn st.world s.session k).1 = true
    · simp only [ReceiveBlockFrom.range, ha, if_true, List.nil_append]
      obtain ⟨h1, h2, h3⟩ := ih
        { asked := st.asked ++ [{ session := s.session, k := k, answer := true }]
          deliveries := st.deliveries ++ [{ session := s.session, frm := frm, blk := blk }]
          world := methods.ReceiveBlockFrom (methods.InterestedIn st.world s.session k).2
            s.session frm blk }
      obtain ⟨g1, g2, g3⟩ := ih
        { asked := [{ session := s.session, k := k, answer := true }]
          deliveries := [{ session := s.session, frm := frm, blk := blk }]
          world := methods.ReceiveBlockFrom (methods.InterestedIn st.world s.session k).2
            s.session frm blk }
      refine ⟨?_, ?_, ?_⟩
      · rw [h1, g1, List.append_assoc]
      · rw [h2, g2, List.append_assoc]
      · rw [h3, g3]
    · have hf : (methods.InterestedIn st.world s.session k).1 = false := by
        simpa using ha
      simp only [ReceiveBlockFrom.range, hf, Bool.false_eq_true, if_false, List.nil_append]
      obtain ⟨h1, h2, h3⟩ := ih
        { asked := st.asked ++ [{ session := s.session, k := k, answer := false }]
          deliveries := st.deliveries
          world := (methods.InterestedIn st.world s.session k).2 }
      obtain ⟨g1, g2, g3⟩ := ih
        { asked := [{ session := s.session, k := k, answer := false }]
          deliveries := []
          world := (methods.InterestedIn st.world s.session k).2 }
      refine ⟨?_, ?_, ?_⟩
      · rw [h1, g1, List.append_assoc]
      · rw [h2, g2, List.nil_append]
      · rw [h3, g3]

/-- A dispatch over a collection that starts with entry `s`: `s` is asked in the state the
dispatch starts in and delivered to on the answer true, and the rest is a dispatch over the
remaining entries from the state this leaves behind. -/
theorem ReceiveBlockFrom_cons (methods : SessionMethods S Peer Block Cid W)
    (BlockCid : Block → Cid) (w : W) (sm : SessionManager S PM) (frm : Peer) (blk : Block)
    (s : sesTrk S PM) (rest : List (sesTrk S PM)) (hs : sm.sessions = s :: rest) :
    (ReceiveBlockFrom methods BlockCid w sm frm blk).asked =
        { session := s.session, k := BlockCid blk,
          answer := (methods.InterestedIn w s.session (BlockCid blk)).1 } ::
          (ReceiveBlockFrom methods BlockCid
            (if (methods.InterestedIn w s.session (BlockCid blk)).1 then
              methods.ReceiveBlockFrom (methods.InterestedIn w s.session (BlockCid blk)).2
                s.session frm blk
            else (methods.InterestedIn w s.session (BlockCid blk)).2)
            { sm with sessions := rest } frm blk).asked ∧
      (ReceiveBlockFrom methods BlockCid w sm frm blk).deliveries =
        (if (methods.InterestedIn w s.session (BlockCid blk)).1 then
            [{ session := s.session, frm := frm, blk := blk }]
          else []) ++
          (ReceiveBlockFrom methods BlockCid
            (if (methods.InterestedIn w s.session (BlockCid blk)).1 then
              methods.ReceiveBlockFrom (methods.InterestedIn w s.session (BlockCid blk)).2
                s.session frm blk
            else (methods.InterestedIn w s.session (BlockCid blk)).2)
            { sm with sessions := rest } frm blk).deliveries ∧
      (ReceiveBlockFrom methods BlockCid w sm frm blk).world =
        (ReceiveBlockFrom methods BlockCid
          (if (methods.InterestedIn w s.session (BlockCid blk)).1 then
            methods.ReceiveBlockFrom (methods.InterestedIn w s.session (BlockCid blk)).2
              s.session frm blk
          else (methods.InterestedIn w s.session (BlockCid blk)).2)
          { sm with sessions := rest } frm blk).world := by
  simp only [ReceiveBlockFrom, hs]
  by_cases ha : (methods.InterestedIn w s.session (BlockCid blk)).1 = true
  · simp only [ReceiveBlockFrom.range, ha, if_true, List.nil_append]
    obtain ⟨g1, g2, g3⟩ := range_acc methods frm blk (BlockCid blk) rest
      { asked := [{ session := s.session, k := BlockCid blk, answer := true }]
        deliveries := [{ session := s.session, frm := frm, blk := blk }]
        world := methods.ReceiveBlockFrom (methods.InterestedIn w s.session (BlockCid blk)).2
          s.session frm blk }
    exact ⟨g1, g2, g3⟩
  · have hf : (methods.InterestedIn w s.session (BlockCid blk)).1 = false := by
      simpa using ha
    simp only [ReceiveBlockFrom.range, hf, Bool.false_eq_true, if_false, List.nil_append]
    obtain ⟨g1, g2, g3⟩ := range_acc methods frm blk (BlockCid blk) rest
      { asked := [{ session := s.session, k := BlockCid blk, answer := false }]
        deliveries := []
        world := (methods.InterestedIn w s.session (BlockCid blk)).2 }
    exact ⟨g1, g2, g3⟩

/-- C1. Dispatch fan-out: `ReceiveBlockFrom` asks the session of every tracked entry
`InterestedIn(blk.Cid())` once, in collection order, each in the state the sessions are in at
that moment, and calls `ReceiveBlockFrom(from, blk)` on exactly the entries whose question was
answered with true, once each, in the same order, with the peer and block given, and on no
other entry; the number of deliveries is the number of true answers, and when no question is
answered with true (so also on the empty collection) no delivery is made. When the answers do
not depend on the state of the sessions, the deliveries are those to the entries whose session
answers true. In general the first entry is asked in the state the dispatch starts in, and the
remaining entries are handled like a dispatch of their own from the state that the question
and, on the answer true, the delivery leave behind. -/
theorem ReceiveBlockFrom_fan_out (methods : SessionMethods S Peer Block Cid W)
    (BlockCid : Block → Cid) (w : W) (sm : SessionManager S PM) (frm : Peer) (blk : Block) :
    (ReceiveBlockFrom methods BlockCid w sm frm blk).asked.map (fun q => (q.session, q.k)) =
        sm.sessions.map (fun s => (s.session, BlockCid blk)) ∧
      (ReceiveBlockFrom methods BlockCid w sm frm blk).deliveries =
        ((ReceiveBlockFrom methods BlockCid w sm frm blk).asked.filter
          (fun q => q.answer)).map
          (fun q => { session := q.session, frm := frm, blk := blk }) ∧
      (ReceiveBlockFrom methods BlockCid w sm frm blk).deliveries.length =
        (ReceiveBlockFrom methods BlockCid w sm frm blk).asked.countP (fun q => q.answer) ∧
      ((∀ q ∈ (ReceiveBlockFrom methods BlockCid w sm frm blk).asked, q.answer = false) →
        (ReceiveBlockFrom methods BlockCid w sm frm blk).deliveries = []) ∧
      (sm.sessions = [] → (ReceiveBlockFrom methods BlockCid w sm frm blk).deliveries = []) ∧
      (∀ I : S → Bool, (∀ v s, (methods.InterestedIn v s (BlockCid blk)).1 = I s) →
        (ReceiveBlockFrom methods BlockCid w sm frm blk).deliveries =
          (sm.sessions.filter (fun s => I s.session)).map
            (fun s => { session := s.session, frm := frm, blk := blk })) ∧
      (∀ s rest, sm.sessions = s :: rest →
        (ReceiveBlockFrom methods BlockCid w sm frm blk).asked =
            { session := s.session, k := BlockCid blk,
              answer := (methods.InterestedIn w s.session (BlockCid blk)).1 } ::
              (ReceiveBlockFrom methods BlockCid
                (if (methods.InterestedIn w s.session (BlockCid blk)).1 then
                  methods.ReceiveBlockFrom (methods.InterestedIn w s.session (BlockCid blk)).2
                    s.session frm blk
                else (methods.InterestedIn w s.session (BlockCid blk)).2)
                { sm with sessions := rest } frm blk).asked ∧
          (ReceiveBlockFrom methods BlockCid w sm frm blk).deliveries =
            (if (methods.InterestedIn w s.session (BlockCid blk)).1 then
                [{ session := s.session, frm := frm, blk := blk }]
              else []) ++
              (ReceiveBlockFrom methods BlockCid
                (if (methods.InterestedIn w s.session (BlockCid blk)).1 then
                  methods.ReceiveBlockFrom (methods.InterestedIn w s.session (BlockCid blk)).2
                    s.session frm blk
                else (methods.InterestedIn w s.session (BlockCid blk)).2)
                { sm with sessions := rest } frm blk).deliveries) := by
  obtain ⟨hasked, hdel⟩ := ReceiveBlockFrom_calls methods BlockCid w sm frm blk
  refine ⟨hasked, hdel, ?_, ?_, ?_, ?_, ?_⟩
  · rw [hdel, List.length_map, List.countP_eq_length_filter]
  · intro hno
    rw [hdel, List.map_eq_nil_iff, List.filter_eq_nil_iff]
    intro q hq
    simp [hno q hq]
  · intro hnil
    have hq : (ReceiveBlockFrom methods BlockCid w sm frm blk).asked = [] := by
      have := hasked
      rw [hnil, List.map_nil, List.map_eq_nil_iff] at this
      exact this
    rw [hdel, hq]
    rfl
  · intro I hI
    exact ReceiveBlockFrom_deliveries_of_stable methods BlockCid w sm frm blk I hI
  · intro s rest hs
    obtain ⟨h1, h2, _⟩ := ReceiveBlockFrom_cons methods BlockCid w sm frm blk s rest hs
    exact ⟨h1, h2⟩

/-- C1, evaluated: with `A` and `B` tracked, a block with identifier `X` from `P1` is delivered
to `A` only; with two entries of `A` tracked it is delivered once, because `A` has dropped the
want when the loop reaches the second entry; and on the empty collection nothing is
delivered. -/
theorem ReceiveBlockFrom_fan_out_witness :
    (ReceiveBlockFrom demoMethods DemoBlock.cid demoInterestedIn
        (demoManagerWith [entryA 1, entryB 2] 2) DemoPeer.P1
        { cid := DemoCid.X, payload := 7 }).deliveries
      = [{ session := DemoSession.A, frm := DemoPeer.P1,
           blk := { cid := DemoCid.X, payload := 7 } }]
    ∧ (ReceiveBlockFrom demoMethods DemoBlock.cid demoInterestedIn
        (demoManagerWith [entryA 1, entryA 2] 2) DemoPeer.P1
        { cid := DemoCid.X, payload := 7 }).deliveries
      = [{ session := DemoSession.A, frm := DemoPeer.P1,
           blk := { cid := DemoCid.X, payload := 7 } }]
    ∧ (ReceiveBlockFrom demoMethods DemoBlock.cid demoInterestedIn
        (demoManagerWith [entryA 1, entryA 2] 2) DemoPeer.P1
        { cid := DemoCid.X, payload := 7 }).asked
      = [{ session := DemoSession.A, k := DemoCid.X, answer := true },
         { session := DemoSession.A, k := DemoCid.X, answer := false }]
    ∧ (ReceiveBlockFrom demoMethods DemoBlock.cid demoInterestedIn
        (demoManagerWith [] 0) DemoPeer.P1 { cid := DemoCid.X, payload := 7 }).deliveries = [] :=
  ⟨by decide, by decide, by decide,
   (ReceiveBlockFrom_fan_out demoMethods DemoBlock.cid demoInterestedIn (demoManagerWith [] 0)
      DemoPeer.P1 { cid := DemoCid.X, payload := 7 }).2.2.2.2.1 rfl⟩

/-- The identifiers returned by `n` successive calls, from any counter value. -/
theorem times_fst (n : Nat) (sm : SessionManager S PM) :
    (GetNextSessionID.times n sm).1 =
      (List.range n).map (fun j => (sm.sessID + 1 + j) % uint64Size) := by
  induction n generalizing sm with
  | zero => rfl
  | succ n ih =>
    simp only [GetNextSessionID.times, List.range_succ_eq_map, List.map_cons, List.map_map]
    rw [ih]
    simp only [GetNextSessionID, Nat.add_zero, List.cons.injEq, true_and]
    apply List.map_congr_left
    intro j _
    simp only [Function.comp, Nat.succ_eq_add_one]
    rw [Nat.add_assoc ((sm.sessID + 1) % uint64Size) 1 j, Nat.mod_add_mod]
    congr 1
    omega

/-- A fresh manager hands out `1, 2, ..., N` as long as `N` fits the counter. -/
theorem times_New (ctx : Context) (sessionFactory : SessionFactory S PM)
    (peerManagerFactory : PeerManagerFactory PM) (N : Nat) (hN : N < 2 ^ 64) :
    (GetNextSessionID.times N (New ctx sessionFactory peerManagerFactory)).1 =
      List.range' 1 N := by
  rw [times_fst, List.range'_eq_map_range]
  apply List.map_congr_left
  intro j hj
  have hj1 : j < N := List.mem_range.mp hj
  simp only [New, uint64Size]
  rw [Nat.mod_eq_of_lt (by omega)]

/-- C2. Sequential allocation: on a manager fresh from `New`, for `N < 2 ^ 64` the `k`-th of
`N` successive calls of `GetNextSessionID` returns `k`; the `N` values are `1, ..., N`, so they
are pairwise distinct, all at least 1, none above `N`, and `N` itself is issued. -/
theorem GetNextSessionID_sequential (ctx : Context) (sessionFactory : SessionFactory S PM)
    (peerManagerFactory : PeerManagerFactory PM) (N : Nat) (hN : N < 2 ^ 64) :
    (∀ k, 1 ≤ k → k ≤ N →
        (GetNextSessionID.times N (New ctx sessionFactory peerManagerFactory)).1[k - 1]? =
          some k) ∧
      (GetNextSessionID.times N (New ctx sessionFactory peerManagerFactory)).1.length = N ∧
      (GetNextSessionID.times N (New ctx sessionFactory peerManagerFactory)).1.Nodup ∧
      (∀ id ∈ (GetNextSessionID.times N (New ctx sessionFactory peerManagerFactory)).1,
        1 ≤ id ∧ id ≤ N) ∧
      (0 < N → N ∈ (GetNextSessionID.times N (New ctx sessionFactory peerManagerFactory)).1) := by
  rw [times_New ctx sessionFactory peerManagerFactory N hN]
  refine ⟨?_, List.length_range' _ _ _, List.nodup_range' _ _, ?_, ?_⟩
  · intro k hk1 hkN
    rw [List.getElem?_range' _ _ (by omega)]
    simp only [Nat.one_mul, Option.some.injEq]
    omega
  · intro id hid
    rw [List.mem_range'_1] at hid
    omega
  · intro hpos
    rw [List.mem_range'_1]
    omega

/-- C2, evaluated: five calls on the fresh example manager return 1, 2, 3, 4, 5. -/
theorem GetNextSessionID_sequential_witness :
    (5 < 2 ^ 64) ∧ (GetNextSessionID.times 5 demoManager).1 = [1, 2, 3, 4, 5] ∧
      (GetNextSessionID.times 5 demoManager).1[4]? = some 5 :=
  ⟨by decide, by decide,
   (GetNextSessionID_sequential (Context.external 0) demoSessionFactory demoPeerManagerFactory 5
      (by decide)).1 5 (by decide) (by decide)⟩

/-- C4. `removeSession` removes the matching entry and nothing else: when `e` occurs in the
collection, the collection afterwards is a permutation of the original with one occurrence of
`e` erased, it is one entry shorter, `e` occurs once less, and every entry different from `e`
occurs as often as before. -/
theorem removeSession_removes_one [DecidableEq S] [DecidableEq PM] (sm : SessionManager S PM)
    (e : sesTrk S PM) (h : e ∈ sm.sessions) :
    List.Perm (removeSession sm e).sessions (sm.sessions.erase e) ∧
      (removeSession sm e).sessions.length = sm.sessions.length - 1 ∧
      (removeSession sm e).sessions.length + 1 = sm.sessions.length ∧
      (removeSession sm e).sessions.count e + 1 = sm.sessions.count e ∧
      ∀ a, a ≠ e → (removeSession sm e).sessions.count a = sm.sessions.count a := by
  have hp := removeSession_sessions_perm sm e h
  have hpos : 0 < sm.sessions.length := List.length_pos_of_mem h
  have hcount : 0 < sm.sessions.count e := List.count_pos_iff.mpr h
  refine ⟨hp, ?_, ?_, ?_, ?_⟩
  · rw [hp.length_eq, List.length_erase_of_mem h]
  · rw [hp.length_eq, List.length_erase_of_mem h]
    omega
  · rw [hp.count_eq, List.count_erase_self]
    omega
  · intro a ha
    rw [hp.count_eq, List.count_erase_of_ne ha]

/-- C4, evaluated: removing the entry of `A` from `A, B, A'` leaves `A', B`. -/
theorem removeSession_removes_one_witness :
    entryA 1 ∈ (demoManagerWith [entryA 1, entryB 2, entryA 3] 3).sessions ∧
      (removeSession (demoManagerWith [entryA 1, entryB 2, entryA 3] 3) (entryA 1)).sessions =
        [entryA 3, entryB 2] ∧
      (removeSession (demoManagerWith [entryA 1, entryB 2, entryA 3] 3) (entryA 1)).sessions.length
        = 3 - 1 :=
  ⟨by decide, by decide,
   (removeSession_removes_one (demoManagerWith [entryA 1, entryB 2, entryA 3] 3) (entryA 1)
      (by decide)).2.1⟩

/-- C5. `removeSession` on an absent entry is a silent no-op: when `e` does not occur in the
collection the manager is left exactly as it was; hence, when `e` occurs exactly once, a second
`removeSession(e)` gives the same manager as the first. -/
theorem removeSession_absent_noop [DecidableEq S] [DecidableEq PM] (sm : SessionManager S PM)
    (e : sesTrk S PM) :
    (e ∉ sm.sessions → removeSession sm e = sm) ∧
      (sm.sessions.count e = 1 → removeSession (removeSession sm e) e = removeSession sm e) := by
  have hno : ∀ m : SessionManager S PM, e ∉ m.sessions → removeSession m e = m := by
    intro m hm
    have hs := removeSession_sessions_of_not_mem m e hm
    simp only [removeSession] at hs ⊢
    rw [hs]
  refine ⟨hno sm, ?_⟩
  intro hone
  apply hno
  have hmem : e ∈ sm.sessions := List.count_pos_iff.mp (by omega)
  have hp := removeSession_sessions_perm sm e hmem
  intro hc
  have h0 : 0 < (removeSession sm e).sessions.count e := List.count_pos_iff.mpr hc
  rw [hp.count_eq, List.count_erase_self, hone] at h0
  omega

/-- C5, evaluated: removing `A` from a collection that holds only `B` changes nothing, and
removing `A` twice from `A, B` gives what removing it once gives. -/
theorem removeSession_absent_noop_witness :
    (removeSession (demoManagerWith [entryB 2] 2) (entryA 1)).sessions = [entryB 2] ∧
      (removeSession (removeSession (demoManagerWith [entryA 1, entryB 2] 2) (entryA 1))
          (entryA 1)).sessions = [entryB 2] :=
  ⟨congrArg SessionManager.sessions
      ((removeSession_absent_noop (demoManagerWith [entryB 2] 2) (entryA 1)).1 (by decide)),
   ((congrArg SessionManager.sessions
      ((removeSession_absent_noop (demoManagerWith [entryA 1, entryB 2] 2) (entryA 1)).2
        (by decide))).trans (by decide))⟩

/-! ## Identifiers along a history -/

/-- The identifiers issued from counter `c`: the first, then those issued from the counter it
leaves behind. -/
theorem ids_from_succ (c n : Nat) :
    (c + 1) % uint64Size ::
        (List.range n).map (fun j => ((c + 1) % uint64Size + 1 + j) % uint64Size) =
      (List.range (n + 1)).map (fun j => (c + 1 + j) % uint64Size) := by
  simp only [List.range_succ_eq_map, List.map_cons, List.map_map, Nat.add_zero, List.cons.injEq,
    true_and]
  apply List.map_congr_left
  intro j _
  simp only [Function.comp, Nat.succ_eq_add_one]
  rw [Nat.add_assoc ((c + 1) % uint64Size) 1 j, Nat.mod_add_mod]
  congr 1
  omega

/-- Running a sequence of operations appends to the identifiers handed out one identifier per
allocating operation, counted up from the counter modulo `2 ^ 64`. -/
theorem run_ids [DecidableEq S] [DecidableEq PM] (BlockCid : Block → Cid)
    (ops : List (Op S PM Peer Block Cid W)) (h : History S PM Peer Block) :
    (History.run BlockCid ops h).ids =
      h.ids ++ (List.range (allocations ops)).map (fun j => (h.sm.sessID + 1 + j) % uint64Size) := by
  induction ops generalizing h with
  | nil => simp [History.run, allocations]
  | cons op ops ih =>
    have hrun : History.run BlockCid (op :: ops) h =
        History.run BlockCid ops (History.step BlockCid h op) := rfl
    rw [hrun, ih]
    cases op with
    | NewSession ctx =>
      simp only [History.step, NewSession, GetNextSessionID, allocations, List.append_assoc,
        List.singleton_append]
      rw [ids_from_succ]
    | removeSession session =>
      simp only [History.step, removeSession, allocations]
    | ReceiveBlockFrom methods w frm blk =>
      simp only [History.step, ReceiveBlockFrom, allocations]
    | GetNextSessionID =>
      simp only [History.step, GetNextSessionID, allocations, List.append_assoc,
        List.singleton_append]
      rw [ids_from_succ]

/-- From a fresh manager, fewer than `2 ^ 64` allocations hand out `1, 2, 3, ...`. -/
theorem run_ids_New [DecidableEq S] [DecidableEq PM] (BlockCid : Block → Cid) (ctx : Context)
    (sessionFactory : SessionFactory S PM) (peerManagerFactory : PeerManagerFactory PM)
    (ops : List (Op S PM Peer Block Cid W)) (hbound : allocations ops < 2 ^ 64) :
    (History.run BlockCid ops
        (History.start (New ctx sessionFactory peerManagerFactory) : History S PM Peer Block)).ids =
      List.range' 1 (allocations ops) := by
  rw [run_ids, List.range'_eq_map_range]
  simp only [History.start, List.nil_append]
  apply List.map_congr_left
  intro j hj
  have hj1 : j < allocations ops := List.mem_range.mp hj
  simp only [New, uint64Size]
  rw [Nat.mod_eq_of_lt (by omega)]

/-- A sequence of `n` calls of `GetNextSessionID` allocates `n` identifiers. -/
theorem allocations_replicate (n : Nat) :
    allocations (List.replicate n (Op.GetNextSessionID : Op S PM Peer Block Cid W)) = n := by
  induction n with
  | zero => rfl
  | succ n ih => simp [List.replicate_succ, allocations, ih]

/-- C3, amended. Session identifiers are strictly increasing and never reused as long as the
counter has not wrapped: for every sequence of `NewSession`, `removeSession`,
`ReceiveBlockFrom` and `GetNextSessionID` operations on a manager fresh from `New` that
allocates fewer than `2 ^ 64` identifiers, the identifiers handed out are `1, 2, 3, ...` in the
order of allocation, so each is strictly greater than every earlier one and none is 0, whatever
has been removed in between. -/
theorem session_ids_strictly_increasing [DecidableEq S] [DecidableEq PM] (BlockCid : Block → Cid)
    (ctx : Context) (sessionFactory : SessionFactory S PM)
    (peerManagerFactory : PeerManagerFactory PM) (ops : List (Op S PM Peer Block Cid W))
    (hbound : allocations ops < 2 ^ 64) :
    (History.run BlockCid ops
        (History.start (New ctx sessionFactory peerManagerFactory) : History S PM Peer Block)).ids =
        List.range' 1 (allocations ops) ∧
      (History.run BlockCid ops
        (History.start (New ctx sessionFactory peerManagerFactory) :
          History S PM Peer Block)).ids.Pairwise (fun earlier later => earlier < later) ∧
      ∀ id ∈ (History.run BlockCid ops
        (History.start (New ctx sessionFactory peerManagerFactory) : History S PM Peer Block)).ids,
        id ≠ 0 := by
  rw [run_ids_New BlockCid ctx sessionFactory peerManagerFactory ops hbound]
  refine ⟨rfl, ?_, ?_⟩
  · exact List.pairwise_lt_range' 1 (allocations ops)
  · intro id hid
    rw [List.mem_range'_1] at hid
    omega

/-- C3, evaluated: create `A`, dispatch `X`, create `B`, remove `A`, allocate an identifier,
create a third session: the identifiers handed out are 1, 2, 3, 4. -/
theorem session_ids_strictly_increasing_witness :
    (History.run DemoBlock.cid
        demoOps
        (History.start demoManager : History DemoSession Nat DemoPeer DemoBlock)).ids =
      [1, 2, 3, 4] :=
  (session_ids_strictly_increasing DemoBlock.cid (Context.external 0) demoSessionFactory
    demoPeerManagerFactory
    demoOps (by decide)).1

/-- The `j`-th identifier handed out on a fresh history is `c + 1 + j` modulo `2 ^ 64`. -/
theorem run_ids_getElem [DecidableEq S] [DecidableEq PM] (BlockCid : Block → Cid)
    (ops : List (Op S PM Peer Block Cid W)) (sm : SessionManager S PM) (j : Nat)
    (hj : j < allocations ops) :
    (History.run BlockCid ops (History.start sm : History S PM Peer Block)).ids[j]? =
      some ((sm.sessID + 1 + j) % uint64Size) := by
  rw [run_ids]
  have hnil : (History.start sm : History S PM Peer Block).ids = [] := rfl
  have hsm : (History.start sm : History S PM Peer Block).sm = sm := rfl
  rw [hnil, hsm, List.nil_append, List.getElem?_map, List.getElem?_range hj, Option.map_some']

/-- C3 as stated fails once the counter wraps: of `2 ^ 64` successive calls of
`GetNextSessionID` on the fresh example manager the first returns 1 and the last returns 0. -/
theorem session_ids_wrap_counterexample :
    (History.run DemoBlock.cid
        (List.replicate (2 ^ 64) (Op.GetNextSessionID : Op DemoSession Nat DemoPeer DemoBlock DemoCid DemoWants))
        (History.start demoManager : History DemoSession Nat DemoPeer DemoBlock)).ids[0]? = some 1 ∧
      (History.run DemoBlock.cid
        (List.replicate (2 ^ 64) (Op.GetNextSessionID : Op DemoSession Nat DemoPeer DemoBlock DemoCid DemoWants))
        (History.start demoManager : History DemoSession Nat DemoPeer DemoBlock)).ids[2 ^ 64 - 1]? =
        some 0 := by
  have hsid : demoManager.sessID = 0 := rfl
  constructor
  · rw [run_ids_getElem _ _ _ _ (by rw [allocations_replicate]; norm_num), hsid]
    norm_num [uint64Size]
  · rw [run_ids_getElem _ _ _ _ (by rw [allocations_replicate]; norm_num), hsid]
    norm_num [uint64Size]

/-! ## Creating a session -/

/-- C6, amended. `NewSession` registers exactly what the factories build: from counter `c` and
collection `L` it allocates `id = (c + 1) mod 2 ^ 64` (which is `c + 1` unless `c` is the
largest `uint64`), calls the peer-manager factory with the derived context and that id, then
the session factory with the same context and id and the peer manager just returned, leaves
the collection equal to `L` followed by the new pair, leaves the counter at `id`, and returns
the session of the new pair. -/
theorem NewSession_registers (sm : SessionManager S PM) (ctx : Context) :
    (NewSession sm ctx).id = (sm.sessID + 1) % 2 ^ 64 ∧
      (sm.sessID + 1 < 2 ^ 64 → (NewSession sm ctx).id = sm.sessID + 1) ∧
      (NewSession sm ctx).calls =
        [FactoryCall.peerManagerFactory ctx.WithCancel (NewSession sm ctx).id,
         FactoryCall.sessionFactory ctx.WithCancel (NewSession sm ctx).id
           (sm.peerManagerFactory ctx.WithCancel (NewSession sm ctx).id)] ∧
      (NewSession sm ctx).tracked =
        { session := sm.sessionFactory ctx.WithCancel (NewSession sm ctx).id
            (sm.peerManagerFactory ctx.WithCancel (NewSession sm ctx).id)
          pm := sm.peerManagerFactory ctx.WithCancel (NewSession sm ctx).id } ∧
      (NewSession sm ctx).sm.sessions = sm.sessions ++ [(NewSession sm ctx).tracked] ∧
      (NewSession sm ctx).sm.sessID = (NewSession sm ctx).id ∧
      (NewSession sm ctx).fetcher = (NewSession sm ctx).tracked.session := by
  refine ⟨rfl, ?_, rfl, rfl, rfl, rfl, rfl⟩
  intro hlt
  exact Nat.mod_eq_of_lt hlt

/-- C6, evaluated: on the example manager with counter 1 and `A` tracked, `NewSession` allocates
2 and appends the entry of `B`. -/
theorem NewSession_registers_witness :
    (NewSession (demoManagerWith [entryA 1] 1) (Context.external 5)).id = 1 + 1 ∧
      (NewSession (demoManagerWith [entryA 1] 1) (Context.external 5)).sm.sessions =
        [entryA 1, entryB 2] :=
  ⟨(NewSession_registers (demoManagerWith [entryA 1] 1) (Context.external 5)).2.1 (by decide),
   by decide⟩

/-- C6 as stated fails at the largest counter value: from `c = 2 ^ 64 - 1` the identifier
allocated and the counter left behind are 0, not `c + 1`. -/
theorem NewSession_wrap_counterexample :
    (NewSession (demoManagerWith [] (2 ^ 64 - 1)) (Context.external 5)).id = 0 ∧
      (NewSession (demoManagerWith [] (2 ^ 64 - 1)) (Context.external 5)).sm.sessID = 0 ∧
      (NewSession (demoManagerWith [] (2 ^ 64 - 1)) (Context.external 5)).id ≠
        (demoManagerWith [] (2 ^ 64 - 1)).sessID + 1 := by
  have hid : (NewSession (demoManagerWith [] (2 ^ 64 - 1)) (Context.external 5)).id =
      (2 ^ 64 - 1 + 1) % 2 ^ 64 := rfl
  have hctr : (NewSession (demoManagerWith [] (2 ^ 64 - 1)) (Context.external 5)).sm.sessID =
      (2 ^ 64 - 1 + 1) % 2 ^ 64 := rfl
  have hc : (demoManagerWith [] (2 ^ 64 - 1)).sessID = 2 ^ 64 - 1 := rfl
  rw [hid, hctr, hc]
  norm_num

/-! ## Global cancellation -/

/-- C8. Global cancellation empties the registry: when the global signal fires and the watcher
of every tracked entry runs once, in any order, the collection is empty afterwards. No
session's own signal is involved: every watcher runs its `sm.ctx.Done()` case. -/
theorem globalCancel_empties [DecidableEq S] [DecidableEq PM] (sm : SessionManager S PM)
    (order : List (sesTrk S PM)) (h : List.Perm order sm.sessions) :
    (globalCancel sm order).sessions = [] := by
  induction order generalizing sm with
  | nil => exact List.perm_nil.mp h.symm
  | cons e rest ih =>
    have hmem : e ∈ sm.sessions := h.subset (List.mem_cons_self e rest)
    have hp := removeSession_sessions_perm sm e hmem
    have hrest : List.Perm rest (sm.sessions.erase e) := by
      have := h.erase e
      rwa [List.erase_cons_head] at this
    exact ih (removeSession sm e) (hrest.trans hp.symm)

/-- C8, evaluated: with `A`, `B` and a second entry of `A` tracked, the watchers running in the
order `B`, second `A`, first `A` leave nothing tracked. -/
theorem globalCancel_empties_witness :
    (globalCancel (demoManagerWith [entryA 1, entryB 2, entryA 3] 3)
      [entryB 2, entryA 3, entryA 1]).sessions = [] :=
  globalCancel_empties (demoManagerWith [entryA 1, entryB 2, entryA 3] 3)
    [entryB 2, entryA 3, entryA 1] (by decide)

/-! ## Dispatch after a removal -/

/-- Erasing an entry that occurs at most once keeps exactly the entries different from it. -/
theorem erase_eq_filter_of_count_le_one {α : Type} [DecidableEq α] (l : List α) (e : α)
    (h : l.count e ≤ 1) : l.erase e = l.filter (fun a => decide (a ≠ e)) := by
  induction l with
  | nil => rfl
  | cons x t ih =>
    by_cases hx : x = e
    · subst hx
      have hnot : x ∉ t := by
        intro hmem
        have := List.count_pos_iff.mpr hmem
        simp only [List.count_cons_self] at h
        omega
      rw [List.erase_cons_head, List.filter_cons_of_neg (by simp)]
      symm
      rw [List.filter_eq_self]
      intro a ha
      have : a ≠ x := fun hax => hnot (hax ▸ ha)
      simpa using this
    · have hc : t.count e ≤ 1 := by
        rw [List.count_cons_of_ne (Ne.symm hx)] at h
        exact h
      have hbeq : ¬ (x == e) = true := by simpa using hx
      rw [List.erase_cons_tail hbeq, List.filter_cons_of_pos (by simpa using hx), ih hc]

/-- C7, amended. No dispatch reaches a removed session: when entry `e` occurs exactly once in
the collection and no other entry carries the session of `e`, then after `removeSession(e)`
every `ReceiveBlockFrom`, for every peer, every block and every behaviour and state of the
sessions, neither asks nor delivers to the session of `e`; every other entry is still asked,
and is delivered the block exactly when its question is answered with true. When the answers
do not depend on the state of the sessions, the deliveries are those of the same dispatch
before the removal without the ones to the session of `e`, and every other entry is delivered
the block exactly when its session is interested. The dispatch leaves the manager as it is, so
the same holds for every later dispatch. -/
theorem no_dispatch_after_removeSession [DecidableEq S] [DecidableEq PM]
    (sm : SessionManager S PM) (e : sesTrk S PM) (hone : sm.sessions.count e = 1)
    (hsession : ∀ s ∈ sm.sessions, s.session = e.session → s = e)
    (methods : SessionMethods S Peer Block Cid W) (BlockCid : Block → Cid) (w : W) (frm : Peer)
    (blk : Block) :
    (∀ d ∈ (ReceiveBlockFrom methods BlockCid w (removeSession sm e) frm blk).deliveries,
        d.session ≠ e.session) ∧
      (∀ q ∈ (ReceiveBlockFrom methods BlockCid w (removeSession sm e) frm blk).asked,
        q.session ≠ e.session) ∧
      List.Perm
        ((ReceiveBlockFrom methods BlockCid w (removeSession sm e) frm blk).asked.map
          (fun q => q.session))
        ((sm.sessions.filter (fun a => decide (a ≠ e))).map (fun s => s.session)) ∧
      (ReceiveBlockFrom methods BlockCid w (removeSession sm e) frm blk).deliveries =
        ((ReceiveBlockFrom methods BlockCid w (removeSession sm e) frm blk).asked.filter
          (fun q => q.answer)).map
          (fun q => { session := q.session, frm := frm, blk := blk }) ∧
      (∀ I : S → Bool, (∀ v s, (methods.InterestedIn v s (BlockCid blk)).1 = I s) →
        List.Perm (ReceiveBlockFrom methods BlockCid w (removeSession sm e) frm blk).deliveries
            ((ReceiveBlockFrom methods BlockCid w sm frm blk).deliveries.filter
              (fun d => decide (d.session ≠ e.session))) ∧
          (∀ s ∈ sm.sessions, s ≠ e →
            (I s.session = true ↔
              ({ session := s.session, frm := frm, blk := blk } : Delivery S Peer Block) ∈
                (ReceiveBlockFrom methods BlockCid w (removeSession sm e) frm blk).deliveries))) ∧
      (ReceiveBlockFrom methods BlockCid w (removeSession sm e) frm blk).sm =
        removeSession sm e := by
  have hmem : e ∈ sm.sessions := List.count_pos_iff.mp (by omega)
  have hp : List.Perm (removeSession sm e).sessions
      (sm.sessions.filter (fun a => decide (a ≠ e))) := by
    have h1 := removeSession_sessions_perm sm e hmem
    rwa [erase_eq_filter_of_count_le_one sm.sessions e (by omega)] at h1
  have hiff : ∀ s, s ∈ (removeSession sm e).sessions ↔ s ∈ sm.sessions ∧ s ≠ e := by
    intro s
    rw [hp.mem_iff, List.mem_filter]
    simp
  obtain ⟨hasked, hdel⟩ :=
    ReceiveBlockFrom_calls methods BlockCid w (removeSession sm e) frm blk
  have hsessions : (ReceiveBlockFrom methods BlockCid w (removeSession sm e) frm blk).asked.map
      (fun q => q.session) = (removeSession sm e).sessions.map (fun s => s.session) := by
    have := congrArg (List.map Prod.fst) hasked
    simpa only [List.map_map, Function.comp] using this
  refine ⟨?_, ?_, ?_, hdel, ?_, rfl⟩
  · intro d hd
    obtain ⟨⟨s, hs, hsd⟩, _, _⟩ :=
      ReceiveBlockFrom_delivery_mem methods BlockCid w (removeSession sm e) frm blk d hd
    have hs1 := (hiff s).mp hs
    intro hc
    exact hs1.2 (hsession s hs1.1 (hsd.trans hc))
  · intro q hq
    have hq1 : q.session ∈
        (ReceiveBlockFrom methods BlockCid w (removeSession sm e) frm blk).asked.map
          (fun q => q.session) := List.mem_map_of_mem _ hq
    rw [hsessions] at hq1
    obtain ⟨s, hs, hsq⟩ := List.mem_map.mp hq1
    have hs1 := (hiff s).mp hs
    intro hc
    exact hs1.2 (hsession s hs1.1 (hsq.trans hc))
  · rw [hsessions]
    exact hp.map _
  · intro I hI
    rw [ReceiveBlockFrom_deliveries_of_stable methods BlockCid w (removeSession sm e) frm blk
        I hI,
      ReceiveBlockFrom_deliveries_of_stable methods BlockCid w sm frm blk I hI]
    constructor
    · rw [List.filter_map, List.filter_filter]
      refine List.Perm.map _ ?_
      refine ((hp.filter _).trans ?_)
      rw [List.filter_filter]
      apply List.Perm.of_eq
      apply List.filter_congr
      intro s hs
      have hsd : decide (s ≠ e) = decide (s.session ≠ e.session) := by
        by_cases hse : s = e
        · subst hse
          simp
        · have : s.session ≠ e.session := fun hc => hse (hsession s hs hc)
          simp [hse, this]
      simp only [Function.comp, hsd, Bool.and_comm]
    · intro s hs hne
      constructor
      · intro hint
        exact List.mem_map.mpr ⟨s, List.mem_filter.mpr ⟨(hiff s).mpr ⟨hs, hne⟩, hint⟩, rfl⟩
      · intro hd
        obtain ⟨t, ht, hteq⟩ := List.mem_map.mp hd
        have hts : t.session = s.session := congrArg Delivery.session hteq
        have := (List.mem_filter.mp ht).2
        rwa [hts] at this

/-- C7, evaluated on the scenario of the specification: `A` wants `X`, `B` wants `Y`; block `X`
from `P1` goes to `A` only, block `Y` from `P2` to `B` only; after `A` is removed, block `X`
reaches no session, and in particular not `A`. -/
theorem no_dispatch_after_removeSession_witness :
    (NewSession (NewSession demoManager (Context.external 1)).sm (Context.external 2)).sm.sessions
        = [entryA 1, entryB 2] ∧
      (ReceiveBlockFrom demoMethods DemoBlock.cid demoInterestedIn
          (demoManagerWith [entryA 1, entryB 2] 2)
          DemoPeer.P1 { cid := DemoCid.X, payload := 0 }).deliveries =
        [{ session := DemoSession.A, frm := DemoPeer.P1,
           blk := { cid := DemoCid.X, payload := 0 } }] ∧
      (ReceiveBlockFrom demoMethods DemoBlock.cid demoInterestedIn
          (demoManagerWith [entryA 1, entryB 2] 2)
          DemoPeer.P2 { cid := DemoCid.Y, payload := 0 }).deliveries =
        [{ session := DemoSession.B, frm := DemoPeer.P2,
           blk := { cid := DemoCid.Y, payload := 0 } }] ∧
      (ReceiveBlockFrom demoMethods DemoBlock.cid demoInterestedIn
          (removeSession (demoManagerWith [entryA 1, entryB 2] 2) (entryA 1))
          DemoPeer.P1 { cid := DemoCid.X, payload := 0 }).deliveries = [] ∧
      (∀ d ∈ (ReceiveBlockFrom demoMethods DemoBlock.cid demoInterestedIn
          (removeSession (demoManagerWith [entryA 1, entryB 2] 2) (entryA 1))
          DemoPeer.P1 { cid := DemoCid.X, payload := 0 }).deliveries,
        d.session ≠ (entryA 1).session) :=
  ⟨by decide, by decide, by decide, by decide,
   (no_dispatch_after_removeSession (demoManagerWith [entryA 1, entryB 2] 2) (entryA 1)
      (by decide) (by decide) demoMethods DemoBlock.cid demoInterestedIn DemoPeer.P1
      { cid := DemoCid.X, payload := 0 }).1⟩

/-- C7 as stated fails when another entry carries the same session: a session factory that
hands out `A` twice leaves the entries `(A, pm 1)` and `(A, pm 2)` tracked; `(A, pm 1)` occurs
exactly once, and after it is removed a block `X` is still delivered to `A`. -/
theorem dispatch_after_removeSession_counterexample :
    (NewSession (NewSession (New (Context.external 0) sharedSessionFactory demoPeerManagerFactory)
        (Context.external 1)).sm (Context.external 2)).sm.sessions = [entryA 1, entryA 2] ∧
      (demoManagerWith [entryA 1, entryA 2] 2).sessions.count (entryA 1) = 1 ∧
      (removeSession (demoManagerWith [entryA 1, entryA 2] 2) (entryA 1)).sessions = [entryA 2] ∧
      (ReceiveBlockFrom demoMethods DemoBlock.cid demoInterestedIn
          (removeSession (demoManagerWith [entryA 1, entryA 2] 2) (entryA 1))
          DemoPeer.P1 { cid := DemoCid.X, payload := 0 }).deliveries =
        [{ session := (entryA 1).session, frm := DemoPeer.P1,
           blk := { cid := DemoCid.X, payload := 0 } }] := by
  decide

/-! ## Counting the tracked sessions along a history -/

/-- Occurrences in a list difference. -/
theorem count_diff_eq {α : Type} [DecidableEq α] (a : α) (l₁ l₂ : List α) :
    (l₁.diff l₂).count a = l₁.count a - l₂.count a := by
  induction l₂ generalizing l₁ with
  | nil => simp
  | cons b t ih =>
    rw [List.diff_cons, ih]
    by_cases hab : a = b
    · subst hab
      rw [List.count_erase_self, List.count_cons_self]
      omega
    · rw [List.count_erase_of_ne hab, List.count_cons_of_ne hab]

/-- Watcher-driven operations keep the bookkeeping balanced and add one built entry per
`NewSession` and one removal per `removeSession`. -/
theorem run_balanced [DecidableEq S] [DecidableEq PM] (BlockCid : Block → Cid)
    (ops : List (Op S PM Peer Block Cid W)) (h : History S PM Peer Block) (hbal : h.Balanced)
    (hvalid : watcherDriven BlockCid h ops = true) :
    (History.run BlockCid ops h).Balanced ∧
      (History.run BlockCid ops h).created.length = h.created.length + countNewSession ops ∧
      (History.run BlockCid ops h).removed.length =
        h.removed.length + countRemoveSession ops := by
  induction ops generalizing h with
  | nil => exact ⟨hbal, rfl, rfl⟩
  | cons op ops ih =>
    have hrun : History.run BlockCid (op :: ops) h =
        History.run BlockCid ops (History.step BlockCid h op) := rfl
    rw [hrun]
    obtain ⟨hcount, hlen⟩ := hbal
    cases op with
    | NewSession ctx =>
      have hv : watcherDriven BlockCid (History.step BlockCid h (Op.NewSession ctx : Op S PM Peer Block Cid W)) ops = true :=
        hvalid
      have hb : (History.step BlockCid h (Op.NewSession ctx : Op S PM Peer Block Cid W)).Balanced := by
        constructor
        · intro a
          have := hcount a
          simp only [History.step, NewSession, GetNextSessionID, List.count_append]
          omega
        · simp only [History.step, NewSession, GetNextSessionID, List.length_append,
            List.length_singleton]
          omega
      obtain ⟨h1, h2, h3⟩ := ih _ hb hv
      refine ⟨h1, ?_, ?_⟩
      · rw [h2]
        simp only [History.step, countNewSession, List.length_append, List.length_singleton]
        omega
      · rw [h3]
        simp only [History.step, countRemoveSession]
    | removeSession e =>
      have hv0 : (decide (h.removed.count e < h.created.count e) &&
          watcherDriven BlockCid (History.step BlockCid h (Op.removeSession e : Op S PM Peer Block Cid W)) ops) = true :=
        hvalid
      rw [Bool.and_eq_true, decide_eq_true_eq] at hv0
      obtain ⟨hlt, hv⟩ := hv0
      have hmem : e ∈ h.sm.sessions := by
        apply List.count_pos_iff.mp
        have := hcount e
        omega
      have hp := removeSession_sessions_perm h.sm e hmem
      have hb : (History.step BlockCid h (Op.removeSession e : Op S PM Peer Block Cid W)).Balanced := by
        constructor
        · intro a
          have := hcount a
          have hpos : 0 < h.sm.sessions.count e := List.count_pos_iff.mpr hmem
          simp only [History.step, List.count_append]
          rw [hp.count_eq]
          by_cases hae : a = e
          · subst hae
            rw [List.count_erase_self, List.count_singleton_self]
            omega
          · rw [List.count_erase_of_ne hae, List.count_singleton, if_neg]
            · omega
            · simpa using Ne.symm hae
        · have hpos : 0 < h.sm.sessions.length := List.length_pos_of_mem hmem
          simp only [History.step, List.length_append, List.length_singleton]
          rw [hp.length_eq, List.length_erase_of_mem hmem]
          omega
      obtain ⟨h1, h2, h3⟩ := ih _ hb hv
      refine ⟨h1, ?_, ?_⟩
      · rw [h2]
        simp only [History.step, countNewSession]
      · rw [h3]
        simp only [History.step, countRemoveSession, List.length_append, List.length_singleton]
        omega
    | ReceiveBlockFrom methods w frm blk =>
      have hv : watcherDriven BlockCid
          (History.step BlockCid h (Op.ReceiveBlockFrom methods w frm blk)) ops = true := hvalid
      have hb : (History.step BlockCid h (Op.ReceiveBlockFrom methods w frm blk)).Balanced :=
        ⟨hcount, hlen⟩
      obtain ⟨h1, h2, h3⟩ := ih _ hb hv
      exact ⟨h1, h2, h3⟩
    | GetNextSessionID =>
      have hv : watcherDriven BlockCid (History.step BlockCid h (Op.GetNextSessionID : Op S PM Peer Block Cid W)) ops = true :=
        hvalid
      have hb : (History.step BlockCid h (Op.GetNextSessionID : Op S PM Peer Block Cid W)).Balanced := ⟨hcount, hlen⟩
      obtain ⟨h1, h2, h3⟩ := ih _ hb hv
      exact ⟨h1, h2, h3⟩

/-- C9. Tracked-session count: for every sequence of operations on a manager fresh from `New`
with `M` calls of `NewSession`, any number of `ReceiveBlockFrom` and `GetNextSessionID` calls,
and `R` calls of `removeSession`, each the one watcher-driven removal of a session created
earlier, the collection afterwards has exactly `M - R` entries (and `R ≤ M`), and its entries
are, with multiplicity, the entries built by the `NewSession` calls without those passed to
`removeSession`: none missing, none duplicated. -/
theorem tracked_session_count [DecidableEq S] [DecidableEq PM] (BlockCid : Block → Cid)
    (ctx : Context) (sessionFactory : SessionFactory S PM)
    (peerManagerFactory : PeerManagerFactory PM) (ops : List (Op S PM Peer Block Cid W))
    (hvalid : watcherDriven BlockCid
      (History.start (New ctx sessionFactory peerManagerFactory) : History S PM Peer Block)
      ops = true) :
    (History.run BlockCid ops
        (History.start (New ctx sessionFactory peerManagerFactory) :
          History S PM Peer Block)).sm.sessions.length =
        countNewSession ops - countRemoveSession ops ∧
      countRemoveSession ops ≤ countNewSession ops ∧
      (History.run BlockCid ops
        (History.start (New ctx sessionFactory peerManagerFactory) :
          History S PM Peer Block)).created.length = countNewSession ops ∧
      (History.run BlockCid ops
        (History.start (New ctx sessionFactory peerManagerFactory) :
          History S PM Peer Block)).removed.length = countRemoveSession ops ∧
      List.Perm
        (History.run BlockCid ops
          (History.start (New ctx sessionFactory peerManagerFactory) :
            History S PM Peer Block)).sm.sessions
        ((History.run BlockCid ops
          (History.start (New ctx sessionFactory peerManagerFactory) :
            History S PM Peer Block)).created.diff
          (History.run BlockCid ops
            (History.start (New ctx sessionFactory peerManagerFactory) :
              History S PM Peer Block)).removed) := by
  have hstart : (History.start (New ctx sessionFactory peerManagerFactory) :
      History S PM Peer Block).Balanced := ⟨fun _ => rfl, rfl⟩
  obtain ⟨⟨hcount, hlen⟩, hc, hr⟩ := run_balanced BlockCid ops _ hstart hvalid
  have hc0 : (History.start (New ctx sessionFactory peerManagerFactory) :
      History S PM Peer Block).created.length = 0 := rfl
  have hr0 : (History.start (New ctx sessionFactory peerManagerFactory) :
      History S PM Peer Block).removed.length = 0 := rfl
  rw [hc0, Nat.zero_add] at hc
  rw [hr0, Nat.zero_add] at hr
  refine ⟨by omega, by omega, hc, hr, ?_⟩
  rw [List.perm_iff_count]
  intro a
  rw [count_diff_eq]
  have := hcount a
  omega

/-- C9, evaluated: create `A`, dispatch `X`, create `B`, remove `A`, allocate an identifier,
create a third session: three creations and one removal leave two entries, `B` and the third. -/
theorem tracked_session_count_witness :
    (History.run DemoBlock.cid
        demoOps
        (History.start demoManager :
          History DemoSession Nat DemoPeer DemoBlock)).sm.sessions.length = 3 - 1 :=
  (tracked_session_count DemoBlock.cid (Context.external 0) demoSessionFactory
    demoPeerManagerFactory
    demoOps (by decide)).1

/-! ## One entry per session identifier -/

/-- Forgetting the identifiers turns the loop on tagged entries into the loop of
`removeSession`. -/
theorem scanTagged_map_trk [DecidableEq S] [DecidableEq PM] (l : List (Tagged S PM))
    (e : sesTrk S PM) (n i : Nat) :
    (removeSession.scanTagged l e n i).map Tagged.trk =
      removeSession.scan (l.map Tagged.trk) e n i := by
  induction n generalizing i with
  | zero => rfl
  | succ n ih =>
    simp only [removeSession.scanTagged, removeSession.scan, List.getElem?_map, List.length_map]
    by_cases hmatch : Option.map Tagged.trk l[i]? = some e
    · simp only [hmatch, if_true, List.map_take, List.map_set]
      congr 2
      cases hlast : l[l.length - 1]? with
      | none => rfl
      | some last => rfl
    · simp only [hmatch, if_false]
      exact ih (i + 1)

/-- The loop on tagged entries never adds an entry: every identifier occurs afterwards at most
as often as before. -/
theorem scanTagged_count_le [DecidableEq S] [DecidableEq PM] (l : List (Tagged S PM))
    (e : sesTrk S PM) (n i : Nat) (a : Nat) :
    ((removeSession.scanTagged l e n i).map Tagged.id).count a ≤ (l.map Tagged.id).count a := by
  induction n generalizing i with
  | zero => exact Nat.le_refl _
  | succ n ih =>
    simp only [removeSession.scanTagged]
    by_cases hmatch : Option.map Tagged.trk l[i]? = some e
    · simp only [hmatch, if_true]
      cases hi : l[i]? with
      | none => simp [hi] at hmatch
      | some x =>
        have hp := (cons_swapRemove_perm l x { id := 0, trk := e } i hi).map Tagged.id
        rw [← hp.count_eq, List.map_cons]
        exact List.count_le_count_cons _ _ _
    · simp only [hmatch, if_false]
      exact ih (i + 1)

/-- Along every history the tagged entries are the collection, and every identifier tags at
most as many entries as it has been handed out. -/
theorem run_tagged [DecidableEq S] [DecidableEq PM] (BlockCid : Block → Cid)
    (ops : List (Op S PM Peer Block Cid W)) (h : History S PM Peer Block)
    (htrk : h.tagged.map Tagged.trk = h.sm.sessions)
    (hids : ∀ a, (h.tagged.map Tagged.id).count a ≤ h.ids.count a) :
    (History.run BlockCid ops h).tagged.map Tagged.trk = (History.run BlockCid ops h).sm.sessions ∧
      ∀ a, ((History.run BlockCid ops h).tagged.map Tagged.id).count a ≤
        (History.run BlockCid ops h).ids.count a := by
  induction ops generalizing h with
  | nil => exact ⟨htrk, hids⟩
  | cons op ops ih =>
    have hrun : History.run BlockCid (op :: ops) h =
        History.run BlockCid ops (History.step BlockCid h op) := rfl
    rw [hrun]
    apply ih
    · cases op with
      | NewSession ctx =>
        simp only [History.step, NewSession, GetNextSessionID, List.map_append, htrk,
          List.map_cons, List.map_nil]
      | removeSession e =>
        simp only [History.step, removeSession]
        have hlen : h.tagged.length = h.sm.sessions.length := by
          rw [← htrk, List.length_map]
        rw [scanTagged_map_trk, htrk, hlen]
      | ReceiveBlockFrom methods w frm blk => exact htrk
      | GetNextSessionID => exact htrk
    · intro a
      have := hids a
      cases op with
      | NewSession ctx =>
        simp only [History.step, List.map_append, List.map_cons, List.map_nil, List.count_append]
        omega
      | removeSession e =>
        simp only [History.step]
        exact Nat.le_trans (scanTagged_count_le h.tagged e _ _ a) this
      | ReceiveBlockFrom methods w frm blk => exact this
      | GetNextSessionID =>
        simp only [History.step, List.count_append]
        omega

/-- C10, amended. At most one tracked entry per session identifier while the counter has not
wrapped: in every state reached from `New` through `NewSession`, `removeSession`,
`ReceiveBlockFrom` and `GetNextSessionID` operations that allocate fewer than `2 ^ 64`
identifiers in total, the entries of the collection, each taken with the identifier
`NewSession` allocated for it, carry pairwise different identifiers, and every such identifier
is one that has been handed out. -/
theorem one_entry_per_session_id [DecidableEq S] [DecidableEq PM] (BlockCid : Block → Cid)
    (ctx : Context) (sessionFactory : SessionFactory S PM)
    (peerManagerFactory : PeerManagerFactory PM) (ops : List (Op S PM Peer Block Cid W))
    (hbound : allocations ops < 2 ^ 64) :
    (History.run BlockCid ops
        (History.start (New ctx sessionFactory peerManagerFactory) :
          History S PM Peer Block)).tagged.map Tagged.trk =
        (History.run BlockCid ops
          (History.start (New ctx sessionFactory peerManagerFactory) :
            History S PM Peer Block)).sm.sessions ∧
      ((History.run BlockCid ops
        (History.start (New ctx sessionFactory peerManagerFactory) :
          History S PM Peer Block)).tagged.map Tagged.id).Nodup ∧
      ∀ t ∈ (History.run BlockCid ops
        (History.start (New ctx sessionFactory peerManagerFactory) :
          History S PM Peer Block)).tagged,
        t.id ∈ (History.run BlockCid ops
          (History.start (New ctx sessionFactory peerManagerFactory) :
            History S PM Peer Block)).ids := by
  obtain ⟨htrk, hids⟩ := run_tagged BlockCid ops
    (History.start (New ctx sessionFactory peerManagerFactory) : History S PM Peer Block)
    rfl (fun _ => Nat.le_refl _)
  have hnodup : (History.run BlockCid ops
      (History.start (New ctx sessionFactory peerManagerFactory) :
        History S PM Peer Block)).ids.Nodup := by
    rw [run_ids_New BlockCid ctx sessionFactory peerManagerFactory ops hbound]
    exact List.nodup_range' _ _
  refine ⟨htrk, ?_, ?_⟩
  · rw [List.nodup_iff_count_le_one]
    intro a
    exact Nat.le_trans (hids a) (List.nodup_iff_count_le_one.mp hnodup a)
  · intro t ht
    have hpos : 0 < ((History.run BlockCid ops
        (History.start (New ctx sessionFactory peerManagerFactory) :
          History S PM Peer Block)).tagged.map Tagged.id).count t.id :=
      List.count_pos_iff.mpr (List.mem_map_of_mem Tagged.id ht)
    exact List.count_pos_iff.mp (Nat.lt_of_lt_of_le hpos (hids t.id))

/-- C10, evaluated: create `A`, dispatch `X`, create `B`, remove `A`, allocate an identifier,
create a third session: the two entries left were created for the identifiers 4 and 2. -/
theorem one_entry_per_session_id_witness :
    (History.run DemoBlock.cid
        demoOps
        (History.start demoManager :
          History DemoSession Nat DemoPeer DemoBlock)).tagged.map Tagged.id = [2, 4] ∧
      ((History.run DemoBlock.cid
        demoOps
        (History.start demoManager :
          History DemoSession Nat DemoPeer DemoBlock)).tagged.map Tagged.id).Nodup :=
  ⟨by decide,
   (one_entry_per_session_id DemoBlock.cid (Context.external 0) demoSessionFactory
    demoPeerManagerFactory
    demoOps (by decide)).2.1⟩

/-- Calls of `GetNextSessionID` move the counter and leave the collection and its tags alone. -/
theorem run_replicate_GetNextSessionID [DecidableEq S] [DecidableEq PM] (BlockCid : Block → Cid)
    (n : Nat) (h : History S PM Peer Block) (hc : h.sm.sessID < uint64Size) :
    (History.run BlockCid (List.replicate n (Op.GetNextSessionID : Op S PM Peer Block Cid W))
        h).tagged = h.tagged ∧
      (History.run BlockCid (List.replicate n (Op.GetNextSessionID : Op S PM Peer Block Cid W))
        h).sm = { h.sm with sessID := (h.sm.sessID + n) % uint64Size } := by
  induction n generalizing h with
  | zero =>
    refine ⟨rfl, ?_⟩
    simp only [List.replicate_zero, History.run, List.foldl_nil, Nat.add_zero,
      Nat.mod_eq_of_lt hc]
  | succ n ih =>
    have hrun : History.run BlockCid
        (List.replicate (n + 1) (Op.GetNextSessionID : Op S PM Peer Block Cid W)) h =
        History.run BlockCid (List.replicate n Op.GetNextSessionID)
          (History.step BlockCid h Op.GetNextSessionID) := rfl
    have hc1 : (History.step BlockCid h (Op.GetNextSessionID : Op S PM Peer Block Cid W)).sm.sessID
        < uint64Size := Nat.mod_lt _ (by decide)
    obtain ⟨h1, h2⟩ := ih (History.step BlockCid h Op.GetNextSessionID) hc1
    rw [hrun, h1, h2]
    refine ⟨rfl, ?_⟩
    simp only [History.step, GetNextSessionID]
    rw [Nat.mod_add_mod, Nat.add_assoc, Nat.add_comm 1 n]

/-- Running a sequence that ends with `op` is running the sequence and then `op`. -/
theorem run_cons_append_singleton [DecidableEq S] [DecidableEq PM] (BlockCid : Block → Cid)
    (first last : Op S PM Peer Block Cid W) (ops : List (Op S PM Peer Block Cid W))
    (h : History S PM Peer Block) :
    History.run BlockCid (first :: (ops ++ [last])) h =
      History.step BlockCid (History.run BlockCid ops (History.step BlockCid h first)) last := by
  simp only [History.run, List.foldl_cons, List.foldl_append, List.foldl_nil]

/-- The identifiers tagging the collection after `NewSession`: one more, the one allocated. -/
theorem step_NewSession_tags [DecidableEq S] [DecidableEq PM] (BlockCid : Block → Cid)
    (h : History S PM Peer Block) (ctx : Context) :
    (History.step BlockCid h (Op.NewSession ctx : Op S PM Peer Block Cid W)).tagged.map Tagged.id =
      h.tagged.map Tagged.id ++ [(h.sm.sessID + 1) % uint64Size] := by
  simp only [History.step, NewSession, GetNextSessionID, List.map_append, List.map_cons,
    List.map_nil]

/-- C10 as stated fails once the counter wraps: create a session (identifier 1), call
`GetNextSessionID` `2 ^ 64 - 1` times (the counter is back at 0), create another session: both
tracked entries were created for identifier 1. -/
theorem one_entry_per_session_id_counterexample :
    (History.run DemoBlock.cid
        (Op.NewSession (Context.external 1) ::
          (List.replicate (2 ^ 64 - 1)
              (Op.GetNextSessionID : Op DemoSession Nat DemoPeer DemoBlock DemoCid DemoWants) ++
            [Op.NewSession (Context.external 2)]))
        (History.start demoManager :
          History DemoSession Nat DemoPeer DemoBlock)).tagged.map Tagged.id = [1, 1] := by
  have hfirst : (History.step DemoBlock.cid
      (History.start demoManager : History DemoSession Nat DemoPeer DemoBlock)
      (Op.NewSession (Context.external 1) : Op DemoSession Nat DemoPeer DemoBlock DemoCid DemoWants)).sm.sessID
      = 1 := rfl
  have hlt : (History.step DemoBlock.cid
      (History.start demoManager : History DemoSession Nat DemoPeer DemoBlock)
      (Op.NewSession (Context.external 1) : Op DemoSession Nat DemoPeer DemoBlock DemoCid DemoWants)).sm.sessID
      < uint64Size := by
    rw [hfirst]
    norm_num [uint64Size]
  obtain ⟨htag, hsm⟩ := run_replicate_GetNextSessionID DemoBlock.cid (2 ^ 64 - 1) _ hlt
  have hsid := congrArg SessionManager.sessID hsm
  rw [run_cons_append_singleton, step_NewSession_tags, htag, hsid, step_NewSession_tags]
  have hstart : (History.start demoManager : History DemoSession Nat DemoPeer DemoBlock).tagged
      = [] := rfl
  have hzero : (History.start demoManager : History DemoSession Nat DemoPeer DemoBlock).sm.sessID
      = 0 := rfl
  rw [hstart, hzero]
  show [(0 + 1) % uint64Size] ++ [((((0 + 1) % uint64Size + (2 ^ 64 - 1)) % uint64Size) + 1) % uint64Size] = [1, 1]
  norm_num [uint64Size]

/-! ## The exact shape of a removal -/

/-- What `removeSession` leaves when the first entry equal to `e` is at index `i`. -/
theorem removeSession_sessions_of_first [DecidableEq S] [DecidableEq PM]
    (sm : SessionManager S PM) (e : sesTrk S PM) (i : Nat) (hi : sm.sessions[i]? = some e)
    (hmin : ∀ j, j < i → sm.sessions[j]? ≠ some e) :
    (removeSession sm e).sessions =
      (sm.sessions.set i ((sm.sessions[sm.sessions.length - 1]?).getD e)).take
        (sm.sessions.length - 1) := by
  have hlt : i < sm.sessions.length := by
    by_contra hge
    rw [List.getElem?_eq_none (Nat.le_of_not_lt hge)] at hi
    exact Option.noConfusion hi
  exact scan_of_first sm.sessions e i hi hmin sm.sessions.length 0 (Nat.zero_le i) (by omega)

/-- C15. Exact swap-remove shape: when the collection has length `n` and the first entry equal
to `e` is at index `i`, `removeSession(e)` yields a collection of length `n - 1` that holds at
every position `j < n - 1` other than `i` the original entry at `j` and, when `i < n - 1`, at
position `i` the original last entry; when `i = n - 1` it is the original collection without
its last entry. Only that one occurrence of `e` is gone: `e` occurs once less than before. -/
theorem removeSession_swap_remove_shape [DecidableEq S] [DecidableEq PM]
    (sm : SessionManager S PM) (e : sesTrk S PM) (i : Nat) (hi : sm.sessions[i]? = some e)
    (hmin : ∀ j, j < i → sm.sessions[j]? ≠ some e) :
    (removeSession sm e).sessions.length = sm.sessions.length - 1 ∧
      (∀ j, j < sm.sessions.length - 1 → j ≠ i →
        (removeSession sm e).sessions[j]? = sm.sessions[j]?) ∧
      (i < sm.sessions.length - 1 →
        (removeSession sm e).sessions[i]? = sm.sessions[sm.sessions.length - 1]?) ∧
      (i = sm.sessions.length - 1 → (removeSession sm e).sessions = sm.sessions.dropLast) ∧
      (removeSession sm e).sessions.count e + 1 = sm.sessions.count e := by
  have hshape := removeSession_sessions_of_first sm e i hi hmin
  have hlt : i < sm.sessions.length := by
    by_contra hge
    rw [List.getElem?_eq_none (Nat.le_of_not_lt hge)] at hi
    exact Option.noConfusion hi
  have hlast : sm.sessions[sm.sessions.length - 1]? =
      some ((sm.sessions[sm.sessions.length - 1]?).getD e) := by
    rw [List.getElem?_eq_getElem (by omega)]
    rfl
  refine ⟨?_, ?_, ?_, ?_, ?_⟩
  · rw [hshape, List.length_take, List.length_set]
    omega
  · intro j hj hne
    rw [hshape, List.getElem?_take_of_lt hj, List.getElem?_set_ne (Ne.symm hne)]
  · intro hlt1
    rw [hshape, List.getElem?_take_of_lt hlt1, List.getElem?_set_eq_of_lt _ hlt]
    exact hlast.symm
  · intro heq
    rw [hshape, List.dropLast_eq_take]
    congr 1
    apply List.ext_getElem?
    intro j
    by_cases hji : i = j
    · subst hji
      rw [List.getElem?_set_eq_of_lt _ hlt]
      conv_rhs => rw [heq]
      exact hlast.symm
    · rw [List.getElem?_set_ne hji]
  · have hmem : e ∈ sm.sessions := List.getElem?_mem hi
    have hpos : 0 < sm.sessions.count e := List.count_pos_iff.mpr hmem
    rw [(removeSession_sessions_perm sm e hmem).count_eq, List.count_erase_self]
    omega

/-- C15, evaluated: in `B, A, B', A, C'` the first entry equal to `A` is at index 1; removing
`A` puts the last entry at index 1 and keeps the later `A` at index 3. -/
theorem removeSession_swap_remove_shape_witness :
    (removeSession (demoManagerWith [entryB 2, entryA 1, entryB 3, entryA 1, entryB 5] 5)
        (entryA 1)).sessions = [entryB 2, entryB 5, entryB 3, entryA 1] ∧
      (removeSession (demoManagerWith [entryB 2, entryA 1, entryB 3, entryA 1, entryB 5] 5)
        (entryA 1)).sessions[1]? =
        (demoManagerWith [entryB 2, entryA 1, entryB 3, entryA 1, entryB 5] 5).sessions[5 - 1]? :=
  ⟨by decide,
   (removeSession_swap_remove_shape
      (demoManagerWith [entryB 2, entryA 1, entryB 3, entryA 1, entryB 5] 5) (entryA 1) 1
      (by decide) (by decide)).2.2.1 (by decide)⟩

/-! ## Matching on the whole pair -/

/-- C13. `removeSession` matches on the whole (session, peer manager) pair: an entry whose
session or whose peer manager differs from that of the argument occurs afterwards as often as
before, so only an entry equal to the argument in both fields is removed; and when the
argument has the session of a tracked entry `t` but another peer manager and equals no tracked
entry, the manager is left unchanged, with `t` still tracked. -/
theorem removeSession_matches_pair [DecidableEq S] [DecidableEq PM] (sm : SessionManager S PM)
    (e : sesTrk S PM) :
    (∀ a : sesTrk S PM, a.session ≠ e.session ∨ a.pm ≠ e.pm →
        (removeSession sm e).sessions.count a = sm.sessions.count a) ∧
      (∀ t ∈ sm.sessions, t.session = e.session → t.pm ≠ e.pm → e ∉ sm.sessions →
        removeSession sm e = sm ∧ t ∈ (removeSession sm e).sessions) := by
  constructor
  · intro a hdiff
    have hne : a ≠ e := by
      intro hae
      subst hae
      cases hdiff with
      | inl h => exact h rfl
      | inr h => exact h rfl
    by_cases hmem : e ∈ sm.sessions
    · rw [(removeSession_sessions_perm sm e hmem).count_eq, List.count_erase_of_ne hne]
    · rw [removeSession_sessions_of_not_mem sm e hmem]
  · intro t ht _ _ hno
    have hs := removeSession_sessions_of_not_mem sm e hno
    constructor
    · simp only [removeSession] at hs ⊢
      rw [hs]
    · rw [hs]
      exact ht

/-- C13, evaluated: with `(A, pm 1)` and `(B, pm 2)` tracked, `removeSession` with `(A, pm 7)`
changes nothing, and removing `(A, pm 1)` from `(A, pm 7), (A, pm 1)` keeps `(A, pm 7)`. -/
theorem removeSession_matches_pair_witness :
    (removeSession (demoManagerWith [entryA 1, entryB 2] 2) (entryA 7)).sessions =
        [entryA 1, entryB 2] ∧
      (removeSession (demoManagerWith [entryA 7, entryA 1] 2) (entryA 1)).sessions.count
        (entryA 7) = 1 :=
  ⟨congrArg SessionManager.sessions
      ((removeSession_matches_pair (demoManagerWith [entryA 1, entryB 2] 2) (entryA 7)).2
        (entryA 1) (by decide) rfl (by decide) (by decide)).1,
   ((removeSession_matches_pair (demoManagerWith [entryA 7, entryA 1] 2) (entryA 1)).1
      (entryA 7) (Or.inr (by decide))).trans (by decide)⟩

/-! ## Dispatch leaves the registry alone -/

/-- A sequence of dispatches changes nothing in a history but the deliveries. -/
theorem run_dispatches_frame [DecidableEq S] [DecidableEq PM] (BlockCid : Block → Cid)
    (dispatches : List (SessionMethods S Peer Block Cid W × W × Peer × Block))
    (h : History S PM Peer Block) :
    (History.run BlockCid
        (dispatches.map (fun d => Op.ReceiveBlockFrom d.1 d.2.1 d.2.2.1 d.2.2.2)) h).sm = h.sm ∧
      (History.run BlockCid
        (dispatches.map (fun d => Op.ReceiveBlockFrom d.1 d.2.1 d.2.2.1 d.2.2.2)) h).ids
        = h.ids ∧
      (History.run BlockCid
        (dispatches.map (fun d => Op.ReceiveBlockFrom d.1 d.2.1 d.2.2.1 d.2.2.2)) h).created
        = h.created ∧
      (History.run BlockCid
        (dispatches.map (fun d => Op.ReceiveBlockFrom d.1 d.2.1 d.2.2.1 d.2.2.2)) h).removed
        = h.removed ∧
      (History.run BlockCid
        (dispatches.map (fun d => Op.ReceiveBlockFrom d.1 d.2.1 d.2.2.1 d.2.2.2)) h).tagged
        = h.tagged := by
  induction dispatches generalizing h with
  | nil => exact ⟨rfl, rfl, rfl, rfl, rfl⟩
  | cons d rest ih =>
    have hrun : History.run BlockCid
        ((d :: rest).map (fun d => Op.ReceiveBlockFrom d.1 d.2.1 d.2.2.1 d.2.2.2)) h =
        History.run BlockCid (rest.map (fun d => Op.ReceiveBlockFrom d.1 d.2.1 d.2.2.1 d.2.2.2))
          (History.step BlockCid h (Op.ReceiveBlockFrom d.1 d.2.1 d.2.2.1 d.2.2.2)) := rfl
    rw [hrun]
    exact ih (History.step BlockCid h (Op.ReceiveBlockFrom d.1 d.2.1 d.2.2.1 d.2.2.2))

/-- C14. `ReceiveBlockFrom` does not change the registry: the manager it leaves is the manager
it was called on, so the tracked collection (entries and order) and the session-identifier
counter are what they were before, whatever the sessions do when they are asked or delivered
to; and after any sequence of dispatches the manager and the record of identifiers, created,
removed and tagged entries are unchanged: the deliveries are the only effect. -/
theorem ReceiveBlockFrom_frame [DecidableEq S] [DecidableEq PM]
    (methods : SessionMethods S Peer Block Cid W) (BlockCid : Block → Cid) (w : W)
    (sm : SessionManager S PM) (frm : Peer) (blk : Block)
    (dispatches : List (SessionMethods S Peer Block Cid W × W × Peer × Block))
    (h : History S PM Peer Block) :
    (ReceiveBlockFrom methods BlockCid w sm frm blk).sm = sm ∧
      (ReceiveBlockFrom methods BlockCid w sm frm blk).sm.sessions = sm.sessions ∧
      (ReceiveBlockFrom methods BlockCid w sm frm blk).sm.sessID = sm.sessID ∧
      (History.step BlockCid h (Op.ReceiveBlockFrom methods w frm blk)).delivered =
        h.delivered ++ (ReceiveBlockFrom methods BlockCid w h.sm frm blk).deliveries ∧
      (History.run BlockCid
        (dispatches.map (fun d => Op.ReceiveBlockFrom d.1 d.2.1 d.2.2.1 d.2.2.2)) h).sm = h.sm ∧
      (History.run BlockCid
        (dispatches.map (fun d => Op.ReceiveBlockFrom d.1 d.2.1 d.2.2.1 d.2.2.2)) h).tagged
        = h.tagged := by
  obtain ⟨h1, _, _, _, h5⟩ := run_dispatches_frame BlockCid dispatches h
  exact ⟨rfl, rfl, rfl, rfl, h1, h5⟩

/-! ## The watcher removes once and stops -/

/-- C12. The lifecycle watcher removes once and stops: whichever of its two events the `select`
receives (`sm.ctx.Done()` or `ctx.Done()`), the goroutine started by `NewSession` returns after
one pass through its loop body, having made exactly one `removeSession` call, with the entry
`NewSession` built, followed by the deferred `cancel` of the derived context; the manager it
leaves is the manager with that entry removed. Any positive bound on the passes suffices. -/
theorem watcher_removes_once [DecidableEq S] [DecidableEq PM] (sm0 : SessionManager S PM)
    (ctx : Context) (sm : SessionManager S PM) (signals : Nat → Signal) (fuel : Nat) :
    watcher.run (NewSession.closure sm0 ctx) signals (fuel + 1) sm =
        some
          { sm := removeSession sm (NewSession sm0 ctx).tracked
            deferred := []
            trace :=
              [WatcherAction.deferCancel ctx.WithCancel,
               WatcherAction.receive (signals 0),
               WatcherAction.removeSession (NewSession sm0 ctx).tracked,
               WatcherAction.cancel ctx.WithCancel]
            iterations := 1 } ∧
      removeSession sm (NewSession sm0 ctx).tracked =
        watcher sm (NewSession sm0 ctx).tracked (signals 0) := by
  constructor
  · cases hsig : signals 0 with
    | smCtxDone =>
      simp [watcher.run, watcher.loop, watcher.body, watcher.runDeferred, NewSession.closure, hsig]
    | ctxDone =>
      simp [watcher.run, watcher.loop, watcher.body, watcher.runDeferred, NewSession.closure, hsig]
  · cases signals 0 <;> rfl

/-- C12, evaluated: the watcher of the first session of the example manager, running on the
manager that tracks `A` and `B` when `ctx.Done()` fires, removes `A`, cancels, and stops after
one pass. -/
theorem watcher_removes_once_witness :
    (watcher.run (NewSession.closure demoManager (Context.external 1))
        (fun _ => Signal.ctxDone) 3 (demoManagerWith [entryA 1, entryB 2] 2)).map
        (fun st => (st.sm.sessions, st.trace, st.iterations)) =
      some ([entryB 2],
        [WatcherAction.deferCancel (Context.external 1).WithCancel,
         WatcherAction.receive Signal.ctxDone,
         WatcherAction.removeSession (entryA 1),
         WatcherAction.cancel (Context.external 1).WithCancel], 1) :=
  (congrArg (Option.map (fun st => (st.sm.sessions, st.trace, st.iterations)))
    (watcher_removes_once demoManager (Context.external 1)
      (demoManagerWith [entryA 1, entryB 2] 2) (fun _ => Signal.ctxDone) 2).1).trans
    (by decide)

/-! ## Concurrent identifier allocation -/

/-- Two callers between `Lock` and `Unlock` are the same caller. -/
theorem Concurrent.Inv.holder_unique {b : Nat} {c : Concurrent S PM} (hinv : c.Inv b)
    (t u : Nat) (ht1 : (c.callers t).pc ≠ GetNextSessionID.PC.lock)
    (ht2 : (c.callers t).pc ≠ GetNextSessionID.PC.returned)
    (hu1 : (c.callers u).pc ≠ GetNextSessionID.PC.lock)
    (hu2 : (c.callers u).pc ≠ GetNextSessionID.PC.returned) : t = u := by
  by_contra hne
  have htk : (c.callers t).ticket = c.acquired := by
    cases hpc : (c.callers t).pc with
    | lock => exact absurd hpc ht1
    | load => exact (hinv.atLoad t hpc).1
    | store => exact (hinv.atStore t hpc).1
    | result => exact (hinv.atResult t hpc).1
    | unlock => exact (hinv.atUnlock t hpc).1
    | returned => exact absurd hpc ht2
  have huk : (c.callers u).ticket = c.acquired := by
    cases hpc : (c.callers u).pc with
    | lock => exact absurd hpc hu1
    | load => exact (hinv.atLoad u hpc).1
    | store => exact (hinv.atStore u hpc).1
    | result => exact (hinv.atResult u hpc).1
    | unlock => exact (hinv.atUnlock u hpc).1
    | returned => exact absurd hpc hu2
  exact hinv.distinct t u hne ht1 hu1 (htk.trans huk.symm)

/-- The invariant holds at the start. -/
theorem Concurrent.Inv.start (sm : SessionManager S PM) :
    (Concurrent.start sm).Inv sm.sessID := by
  constructor
  · intro t h
    exact absurd rfl h
  · intro _
    rfl
  · intro t h
    exact absurd h (by simp [Concurrent.start])
  · intro t h
    exact absurd h (by simp [Concurrent.start])
  · intro t h
    exact absurd h (by simp [Concurrent.start])
  · intro t h
    exact absurd h (by simp [Concurrent.start])
  · intro t h
    exact absurd h (by simp [Concurrent.start])
  · intro t h
    exact absurd rfl h
  · intro t u _ h
    exact absurd rfl h
/-- While the mutex is free no caller is between `Lock` and `Unlock`. -/
theorem Concurrent.Inv.outside_of_free {b : Nat} {c : Concurrent S PM} (hinv : c.Inv b)
    (hfree : c.sessIDLk = false) (u : Nat) :
    (c.callers u).pc = GetNextSessionID.PC.lock ∨
      (c.callers u).pc = GetNextSessionID.PC.returned := by
  by_contra hcon
  rw [not_or] at hcon
  have := hinv.locked u hcon.1 hcon.2
  rw [hfree] at this
  exact Bool.noConfusion this

/-- The invariant survives a successful `Lock`. -/
theorem Concurrent.Inv.step_lock {b : Nat} {c : Concurrent S PM} (hinv : c.Inv b) (t : Nat)
    (hpc : (c.callers t).pc = GetNextSessionID.PC.lock) (hfree : c.sessIDLk = false) :
    (c.step t).Inv b := by
  have hstep : c.step t =
      { c with
        sessIDLk := true
        acquired := c.acquired + 1
        callers := Function.update c.callers t
          { c.callers t with pc := GetNextSessionID.PC.load, ticket := c.acquired + 1 } } := by
    simp [Concurrent.step, hpc, hfree]
  have hout := hinv.outside_of_free hfree
  have hsess := hinv.free hfree
  rw [hstep]
  constructor
  · intro u _ _
    rfl
  · intro h
    exact Bool.noConfusion h
  · intro u hu
    by_cases hut : u = t
    · subst hut
      simp only [Function.update_same, Nat.add_sub_cancel]
      exact ⟨trivial, hsess⟩
    · simp only [Function.update_noteq hut] at hu
      cases hout u with
      | inl h => rw [h] at hu; exact GetNextSessionID.PC.noConfusion hu
      | inr h => rw [h] at hu; exact GetNextSessionID.PC.noConfusion hu
  · intro u hu
    by_cases hut : u = t
    · subst hut
      simp only [Function.update_same] at hu
      exact GetNextSessionID.PC.noConfusion hu
    · simp only [Function.update_noteq hut] at hu
      cases hout u with
      | inl h => rw [h] at hu; exact GetNextSessionID.PC.noConfusion hu
      | inr h => rw [h] at hu; exact GetNextSessionID.PC.noConfusion hu
  · intro u hu
    by_cases hut : u = t
    · subst hut
      simp only [Function.update_same] at hu
      exact GetNextSessionID.PC.noConfusion hu
    · simp only [Function.update_noteq hut] at hu
      cases hout u with
      | inl h => rw [h] at hu; exact GetNextSessionID.PC.noConfusion hu
      | inr h => rw [h] at hu; exact GetNextSessionID.PC.noConfusion hu
  · intro u hu
    by_cases hut : u = t
    · subst hut
      simp only [Function.update_same] at hu
      exact GetNextSessionID.PC.noConfusion hu
    · simp only [Function.update_noteq hut] at hu
      cases hout u with
      | inl h => rw [h] at hu; exact GetNextSessionID.PC.noConfusion hu
      | inr h => rw [h] at hu; exact GetNextSessionID.PC.noConfusion hu
  · intro u hu
    by_cases hut : u = t
    · subst hut
      simp only [Function.update_same] at hu
      exact GetNextSessionID.PC.noConfusion hu
    · simp only [Function.update_noteq hut] at hu ⊢
      exact hinv.atReturned u hu
  · intro u hu
    by_cases hut : u = t
    · subst hut
      simp only [Function.update_same]
      omega
    · simp only [Function.update_noteq hut] at hu ⊢
      have := hinv.bound u hu
      omega
  · intro u v huv hu hv
    by_cases hut : u = t
    · subst hut
      have hvu : v ≠ u := Ne.symm huv
      simp only [Function.update_same, Function.update_noteq hvu] at hv ⊢
      have := hinv.bound v hv
      omega
    · by_cases hvt : v = t
      · subst hvt
        simp only [Function.update_same, Function.update_noteq hut] at hu ⊢
        have := hinv.bound u hu
        omega
      · simp only [Function.update_noteq hut, Function.update_noteq hvt] at hu hv ⊢
        exact hinv.distinct u v huv hu hv
/-- While caller `t` is between `Lock` and `Unlock`, every other caller is outside. -/
theorem Concurrent.Inv.others_outside {b : Nat} {c : Concurrent S PM} (hinv : c.Inv b)
    (t : Nat) (ht1 : (c.callers t).pc ≠ GetNextSessionID.PC.lock)
    (ht2 : (c.callers t).pc ≠ GetNextSessionID.PC.returned) (u : Nat) (hut : u ≠ t) :
    (c.callers u).pc = GetNextSessionID.PC.lock ∨
      (c.callers u).pc = GetNextSessionID.PC.returned := by
  by_contra hcon
  rw [not_or] at hcon
  exact hut (hinv.holder_unique u t hcon.1 hcon.2 ht1 ht2)

/-- The invariant survives the read of `sm.sessID++`. -/
theorem Concurrent.Inv.step_load {b : Nat} {c : Concurrent S PM} (hinv : c.Inv b) (t : Nat)
    (hpc : (c.callers t).pc = GetNextSessionID.PC.load) : (c.step t).Inv b := by
  have hstep : c.step t =
      { c with
        callers := Function.update c.callers t
          { c.callers t with pc := GetNextSessionID.PC.store, tmp := c.sm.sessID } } := by
    simp [Concurrent.step, hpc]
  have hne1 : (c.callers t).pc ≠ GetNextSessionID.PC.lock := by simp [hpc]
  have hne2 : (c.callers t).pc ≠ GetNextSessionID.PC.returned := by simp [hpc]
  have hlocked := hinv.locked t hne1 hne2
  have hat := hinv.atLoad t hpc
  rw [hstep]
  constructor
  · intro u _ _
    exact hlocked
  · intro h
    rw [hlocked] at h
    exact Bool.noConfusion h
  · intro u hu
    by_cases hut : u = t
    · subst hut
      simp only [Function.update_same] at hu
      exact GetNextSessionID.PC.noConfusion hu
    · simp only [Function.update_noteq hut] at hu ⊢
      exact hinv.atLoad u hu
  · intro u hu
    by_cases hut : u = t
    · subst hut
      simp only [Function.update_same]
      exact hat
    · simp only [Function.update_noteq hut] at hu ⊢
      exact hinv.atStore u hu
  · intro u hu
    by_cases hut : u = t
    · subst hut
      simp only [Function.update_same] at hu
      exact GetNextSessionID.PC.noConfusion hu
    · simp only [Function.update_noteq hut] at hu ⊢
      exact hinv.atResult u hu
  · intro u hu
    by_cases hut : u = t
    · subst hut
      simp only [Function.update_same] at hu
      exact GetNextSessionID.PC.noConfusion hu
    · simp only [Function.update_noteq hut] at hu ⊢
      exact hinv.atUnlock u hu
  · intro u hu
    by_cases hut : u = t
    · subst hut
      simp only [Function.update_same] at hu
      exact GetNextSessionID.PC.noConfusion hu
    · simp only [Function.update_noteq hut] at hu ⊢
      exact hinv.atReturned u hu
  · intro u hu
    by_cases hut : u = t
    · subst hut
      simp only [Function.update_same]
      exact hinv.bound u hne1
    · simp only [Function.update_noteq hut] at hu ⊢
      exact hinv.bound u hu
  · intro u v huv hu hv
    by_cases hut : u = t
    · subst hut
      have hvu : v ≠ u := Ne.symm huv
      simp only [Function.update_same, Function.update_noteq hvu] at hv ⊢
      exact hinv.distinct u v huv hne1 hv
    · by_cases hvt : v = t
      · subst hvt
        simp only [Function.update_same, Function.update_noteq hut] at hu ⊢
        exact hinv.distinct u v huv hu hne1
      · simp only [Function.update_noteq hut, Function.update_noteq hvt] at hu hv ⊢
        exact hinv.distinct u v huv hu hv

/-- The invariant survives the write of `sm.sessID++`. -/
theorem Concurrent.Inv.step_store {b : Nat} {c : Concurrent S PM} (hinv : c.Inv b) (t : Nat)
    (hpc : (c.callers t).pc = GetNextSessionID.PC.store) : (c.step t).Inv b := by
  have hstep : c.step t =
      { c with
        sm := { c.sm with sessID := ((c.callers t).tmp + 1) % uint64Size }
        callers := Function.update c.callers t
          { c.callers t with pc := GetNextSessionID.PC.result } } := by
    simp [Concurrent.step, hpc]
  have hne1 : (c.callers t).pc ≠ GetNextSessionID.PC.lock := by simp [hpc]
  have hne2 : (c.callers t).pc ≠ GetNextSessionID.PC.returned := by simp [hpc]
  have hlocked := hinv.locked t hne1 hne2
  have hat := hinv.atStore t hpc
  have hbound := hinv.bound t hne1
  have hout := hinv.others_outside t hne1 hne2
  rw [hstep]
  constructor
  · intro u _ _
    exact hlocked
  · intro h
    rw [hlocked] at h
    exact Bool.noConfusion h
  · intro u hu
    by_cases hut : u = t
    · subst hut
      simp only [Function.update_same] at hu
      exact GetNextSessionID.PC.noConfusion hu
    · simp only [Function.update_noteq hut] at hu
      cases hout u hut with
      | inl h => rw [h] at hu; exact GetNextSessionID.PC.noConfusion hu
      | inr h => rw [h] at hu; exact GetNextSessionID.PC.noConfusion hu
  · intro u hu
    by_cases hut : u = t
    · subst hut
      simp only [Function.update_same] at hu
      exact GetNextSessionID.PC.noConfusion hu
    · simp only [Function.update_noteq hut] at hu
      cases hout u hut with
      | inl h => rw [h] at hu; exact GetNextSessionID.PC.noConfusion hu
      | inr h => rw [h] at hu; exact GetNextSessionID.PC.noConfusion hu
  · intro u hu
    by_cases hut : u = t
    · subst hut
      simp only [Function.update_same]
      refine ⟨hat.1, ?_⟩
      rw [← Nat.mod_add_mod (c.callers u).tmp uint64Size 1, hat.2, Nat.mod_add_mod]
      congr 1
      omega
    · simp only [Function.update_noteq hut] at hu
      cases hout u hut with
      | inl h => rw [h] at hu; exact GetNextSessionID.PC.noConfusion hu
      | inr h => rw [h] at hu; exact GetNextSessionID.PC.noConfusion hu
  · intro u hu
    by_cases hut : u = t
    · subst hut
      simp only [Function.update_same] at hu
      exact GetNextSessionID.PC.noConfusion hu
    · simp only [Function.update_noteq hut] at hu
      cases hout u hut with
      | inl h => rw [h] at hu; exact GetNextSessionID.PC.noConfusion hu
      | inr h => rw [h] at hu; exact GetNextSessionID.PC.noConfusion hu
  · intro u hu
    by_cases hut : u = t
    · subst hut
      simp only [Function.update_same] at hu
      exact GetNextSessionID.PC.noConfusion hu
    · simp only [Function.update_noteq hut] at hu ⊢
      exact hinv.atReturned u hu
  · intro u hu
    by_cases hut : u = t
    · subst hut
      simp only [Function.update_same]
      exact hbound
    · simp only [Function.update_noteq hut] at hu ⊢
      exact hinv.bound u hu
  · intro u v huv hu hv
    by_cases hut : u = t
    · subst hut
      have hvu : v ≠ u := Ne.symm huv
      simp only [Function.update_same, Function.update_noteq hvu] at hv ⊢
      exact hinv.distinct u v huv hne1 hv
    · by_cases hvt : v = t
      · subst hvt
        simp only [Function.update_same, Function.update_noteq hut] at hu ⊢
        exact hinv.distinct u v huv hu hne1
      · simp only [Function.update_noteq hut, Function.update_noteq hvt] at hu hv ⊢
        exact hinv.distinct u v huv hu hv
/-- The invariant survives the evaluation of `return sm.sessID`. -/
theorem Concurrent.Inv.step_result {b : Nat} {c : Concurrent S PM} (hinv : c.Inv b) (t : Nat)
    (hpc : (c.callers t).pc = GetNextSessionID.PC.result) : (c.step t).Inv b := by
  have hstep : c.step t =
      { c with
        callers := Function.update c.callers t
          { c.callers t with pc := GetNextSessionID.PC.unlock, ret := c.sm.sessID } } := by
    simp [Concurrent.step, hpc]
  have hne1 : (c.callers t).pc ≠ GetNextSessionID.PC.lock := by simp [hpc]
  have hne2 : (c.callers t).pc ≠ GetNextSessionID.PC.returned := by simp [hpc]
  have hlocked := hinv.locked t hne1 hne2
  have hat := hinv.atResult t hpc
  rw [hstep]
  constructor
  · intro u _ _
    exact hlocked
  · intro h
    rw [hlocked] at h
    exact Bool.noConfusion h
  · intro u hu
    by_cases hut : u = t
    · subst hut
      simp only [Function.update_same] at hu
      exact GetNextSessionID.PC.noConfusion hu
    · simp only [Function.update_noteq hut] at hu ⊢
      exact hinv.atLoad u hu
  · intro u hu
    by_cases hut : u = t
    · subst hut
      simp only [Function.update_same] at hu
      exact GetNextSessionID.PC.noConfusion hu
    · simp only [Function.update_noteq hut] at hu ⊢
      exact hinv.atStore u hu
  · intro u hu
    by_cases hut : u = t
    · subst hut
      simp only [Function.update_same] at hu
      exact GetNextSessionID.PC.noConfusion hu
    · simp only [Function.update_noteq hut] at hu ⊢
      exact hinv.atResult u hu
  · intro u hu
    by_cases hut : u = t
    · subst hut
      simp only [Function.update_same]
      exact ⟨hat.1, hat.2, hat.2⟩
    · simp only [Function.update_noteq hut] at hu ⊢
      exact hinv.atUnlock u hu
  · intro u hu
    by_cases hut : u = t
    · subst hut
      simp only [Function.update_same] at hu
      exact GetNextSessionID.PC.noConfusion hu
    · simp only [Function.update_noteq hut] at hu ⊢
      exact hinv.atReturned u hu
  · intro u hu
    by_cases hut : u = t
    · subst hut
      simp only [Function.update_same]
      exact hinv.bound u hne1
    · simp only [Function.update_noteq hut] at hu ⊢
      exact hinv.bound u hu
  · intro u v huv hu hv
    by_cases hut : u = t
    · subst hut
      have hvu : v ≠ u := Ne.symm huv
      simp only [Function.update_same, Function.update_noteq hvu] at hv ⊢
      exact hinv.distinct u v huv hne1 hv
    · by_cases hvt : v = t
      · subst hvt
        simp only [Function.update_same, Function.update_noteq hut] at hu ⊢
        exact hinv.distinct u v huv hu hne1
      · simp only [Function.update_noteq hut, Function.update_noteq hvt] at hu hv ⊢
        exact hinv.distinct u v huv hu hv

/-- The invariant survives the deferred `Unlock`. -/
theorem Concurrent.Inv.step_unlock {b : Nat} {c : Concurrent S PM} (hinv : c.Inv b) (t : Nat)
    (hpc : (c.callers t).pc = GetNextSessionID.PC.unlock) : (c.step t).Inv b := by
  have hstep : c.step t =
      { c with
        sessIDLk := false
        callers := Function.update c.callers t
          { c.callers t with pc := GetNextSessionID.PC.returned } } := by
    simp [Concurrent.step, hpc]
  have hne1 : (c.callers t).pc ≠ GetNextSessionID.PC.lock := by simp [hpc]
  have hne2 : (c.callers t).pc ≠ GetNextSessionID.PC.returned := by simp [hpc]
  have hat := hinv.atUnlock t hpc
  have hout := hinv.others_outside t hne1 hne2
  rw [hstep]
  constructor
  · intro u hu1 hu2
    by_cases hut : u = t
    · subst hut
      simp only [Function.update_same] at hu2
      exact absurd rfl hu2
    · simp only [Function.update_noteq hut] at hu1 hu2
      cases hout u hut with
      | inl h => exact absurd h hu1
      | inr h => exact absurd h hu2
  · intro _
    rw [hat.2.2, Nat.mod_mod]
  · intro u hu
    by_cases hut : u = t
    · subst hut
      simp only [Function.update_same] at hu
      exact GetNextSessionID.PC.noConfusion hu
    · simp only [Function.update_noteq hut] at hu ⊢
      exact hinv.atLoad u hu
  · intro u hu
    by_cases hut : u = t
    · subst hut
      simp only [Function.update_same] at hu
      exact GetNextSessionID.PC.noConfusion hu
    · simp only [Function.update_noteq hut] at hu ⊢
      exact hinv.atStore u hu
  · intro u hu
    by_cases hut : u = t
    · subst hut
      simp only [Function.update_same] at hu
      exact GetNextSessionID.PC.noConfusion hu
    · simp only [Function.update_noteq hut] at hu ⊢
      exact hinv.atResult u hu
  · intro u hu
    by_cases hut : u = t
    · subst hut
      simp only [Function.update_same] at hu
      exact GetNextSessionID.PC.noConfusion hu
    · simp only [Function.update_noteq hut] at hu ⊢
      exact hinv.atUnlock u hu
  · intro u hu
    by_cases hut : u = t
    · subst hut
      simp only [Function.update_same]
      rw [hat.1]
      exact hat.2.1
    · simp only [Function.update_noteq hut] at hu ⊢
      exact hinv.atReturned u hu
  · intro u hu
    by_cases hut : u = t
    · subst hut
      simp only [Function.update_same]
      exact hinv.bound u hne1
    · simp only [Function.update_noteq hut] at hu ⊢
      exact hinv.bound u hu
  · intro u v huv hu hv
    by_cases hut : u = t
    · subst hut
      have hvu : v ≠ u := Ne.symm huv
      simp only [Function.update_same, Function.update_noteq hvu] at hv ⊢
      exact hinv.distinct u v huv hne1 hv
    · by_cases hvt : v = t
      · subst hvt
        simp only [Function.update_same, Function.update_noteq hut] at hu ⊢
        exact hinv.distinct u v huv hu hne1
      · simp only [Function.update_noteq hut, Function.update_noteq hvt] at hu hv ⊢
        exact hinv.distinct u v huv hu hv

/-- Every step keeps the invariant. -/
theorem Concurrent.Inv.step {b : Nat} {c : Concurrent S PM} (hinv : c.Inv b) (t : Nat) :
    (c.step t).Inv b := by
  cases hpc : (c.callers t).pc with
  | lock =>
    cases hlk : c.sessIDLk with
    | false => exact hinv.step_lock t hpc hlk
    | true =>
      have hstep : c.step t = c := by simp [Concurrent.step, hpc, hlk]
      rw [hstep]
      exact hinv
  | load => exact hinv.step_load t hpc
  | store => exact hinv.step_store t hpc
  | result => exact hinv.step_result t hpc
  | unlock => exact hinv.step_unlock t hpc
  | returned =>
    have hstep : c.step t = c := by simp [Concurrent.step, hpc]
    rw [hstep]
    exact hinv

/-- Every schedule keeps the invariant. -/
theorem Concurrent.Inv.run {b : Nat} (schedule : List Nat) {c : Concurrent S PM}
    (hinv : c.Inv b) : (Concurrent.run schedule c).Inv b := by
  induction schedule generalizing c with
  | nil => exact hinv
  | cons t rest ih => exact ih (hinv.step t)

/-- C11, amended. Concurrent identifier allocation: when any number of callers run
`GetNextSessionID` on one manager, interleaved statement by statement in any schedule, the
mutex orders the calls: at most one caller is between `Lock` and `Unlock`, every caller that
has entered has its own ticket, its position among the acquisitions of the mutex, and every
caller that has returned has received the value that the sequential call of that position
returns. As long as the mutex has been acquired at most `2 ^ 64` times, no two callers have
received the same value; and on a manager with counter 0 a ticket below `2 ^ 64` is itself the
value received. -/
theorem GetNextSessionID_concurrent (sm : SessionManager S PM) (schedule : List Nat) :
    (∀ t u,
        ((Concurrent.run schedule (Concurrent.start sm)).callers t).pc ≠
          GetNextSessionID.PC.lock →
        ((Concurrent.run schedule (Concurrent.start sm)).callers t).pc ≠
          GetNextSessionID.PC.returned →
        ((Concurrent.run schedule (Concurrent.start sm)).callers u).pc ≠
          GetNextSessionID.PC.lock →
        ((Concurrent.run schedule (Concurrent.start sm)).callers u).pc ≠
          GetNextSessionID.PC.returned → t = u) ∧
      (∀ t u, t ≠ u →
        ((Concurrent.run schedule (Concurrent.start sm)).callers t).pc ≠
          GetNextSessionID.PC.lock →
        ((Concurrent.run schedule (Concurrent.start sm)).callers u).pc ≠
          GetNextSessionID.PC.lock →
        ((Concurrent.run schedule (Concurrent.start sm)).callers t).ticket ≠
          ((Concurrent.run schedule (Concurrent.start sm)).callers u).ticket) ∧
      (∀ t,
        ((Concurrent.run schedule (Concurrent.start sm)).callers t).pc ≠
          GetNextSessionID.PC.lock →
        1 ≤ ((Concurrent.run schedule (Concurrent.start sm)).callers t).ticket ∧
          ((Concurrent.run schedule (Concurrent.start sm)).callers t).ticket ≤
            (Concurrent.run schedule (Concurrent.start sm)).acquired) ∧
      (∀ t,
        ((Concurrent.run schedule (Concurrent.start sm)).callers t).pc =
          GetNextSessionID.PC.returned →
        (GetNextSessionID.times
            ((Concurrent.run schedule (Concurrent.start sm)).callers t).ticket sm).1[
            ((Concurrent.run schedule (Concurrent.start sm)).callers t).ticket - 1]? =
          some ((Concurrent.run schedule (Concurrent.start sm)).callers t).ret) ∧
      ((Concurrent.run schedule (Concurrent.start sm)).acquired ≤ 2 ^ 64 →
        ∀ t u, t ≠ u →
          ((Concurrent.run schedule (Concurrent.start sm)).callers t).pc =
            GetNextSessionID.PC.returned →
          ((Concurrent.run schedule (Concurrent.start sm)).callers u).pc =
            GetNextSessionID.PC.returned →
          ((Concurrent.run schedule (Concurrent.start sm)).callers t).ret ≠
            ((Concurrent.run schedule (Concurrent.start sm)).callers u).ret) ∧
      (sm.sessID = 0 →
        ∀ t,
          ((Concurrent.run schedule (Concurrent.start sm)).callers t).pc =
            GetNextSessionID.PC.returned →
          ((Concurrent.run schedule (Concurrent.start sm)).callers t).ticket < 2 ^ 64 →
          ((Concurrent.run schedule (Concurrent.start sm)).callers t).ret =
            ((Concurrent.run schedule (Concurrent.start sm)).callers t).ticket) := by
  have hinv := Concurrent.Inv.run schedule (Concurrent.Inv.start sm)
  have hne1 : ∀ v, ((Concurrent.run schedule (Concurrent.start sm)).callers v).pc =
      GetNextSessionID.PC.returned →
      ((Concurrent.run schedule (Concurrent.start sm)).callers v).pc ≠
        GetNextSessionID.PC.lock := by
    intro v hv
    rw [hv]
    exact fun h => GetNextSessionID.PC.noConfusion h
  have hseq : ∀ k, 1 ≤ k →
      (GetNextSessionID.times k sm).1[k - 1]? = some ((sm.sessID + k) % uint64Size) := by
    intro k hk
    rw [times_fst, List.getElem?_map, List.getElem?_range (by omega), Option.map_some']
    congr 2
    omega
  refine ⟨?_, hinv.distinct, hinv.bound, ?_, ?_, ?_⟩
  · intro t u ht1 ht2 hu1 hu2
    exact hinv.holder_unique t u ht1 ht2 hu1 hu2
  · intro t ht
    rw [hseq _ (hinv.bound t (hne1 t ht)).1, hinv.atReturned t ht]
  · intro hbound t u htu ht hu
    have hrt := hinv.atReturned t ht
    have hru := hinv.atReturned u hu
    have hbt := hinv.bound t (hne1 t ht)
    have hbu := hinv.bound u (hne1 u hu)
    have hd := hinv.distinct t u htu (hne1 t ht) (hne1 u hu)
    simp only [uint64Size] at hrt hru
    rw [hrt, hru]
    omega
  · intro h0 t ht hlt
    have hrt := hinv.atReturned t ht
    simp only [uint64Size] at hrt
    rw [hrt, h0, Nat.zero_add]
    exact Nat.mod_eq_of_lt hlt

/-- C11, evaluated: two callers on the fresh example manager; caller 0 takes the mutex, caller
1 waits for it and enters after caller 0 has left; they receive 1 and 2. -/
theorem GetNextSessionID_concurrent_witness :
    ((Concurrent.run [0, 1, 0, 1, 0, 0, 0, 1, 1, 1, 1, 1]
        (Concurrent.start demoManager)).callers 0).ret = 1 ∧
      ((Concurrent.run [0, 1, 0, 1, 0, 0, 0, 1, 1, 1, 1, 1]
        (Concurrent.start demoManager)).callers 1).ret = 2 ∧
      ((Concurrent.run [0, 1, 0, 1, 0, 0, 0, 1, 1, 1, 1, 1]
        (Concurrent.start demoManager)).callers 0).ret ≠
        ((Concurrent.run [0, 1, 0, 1, 0, 0, 0, 1, 1, 1, 1, 1]
          (Concurrent.start demoManager)).callers 1).ret :=
  ⟨by decide, by decide,
   (GetNextSessionID_concurrent demoManager [0, 1, 0, 1, 0, 0, 0, 1, 1, 1, 1, 1]).2.2.2.2.1
      (by decide) 0 1 (by decide) (by decide) (by decide)⟩

/-- The callers `0, ..., n - 1` running one after the other leave the mutex free, the counter
advanced by `n`, and caller `t < n` returned with ticket `t + 1`. -/
theorem run_soloSchedule (sm : SessionManager S PM) (hb : sm.sessID < uint64Size) (n : Nat) :
    Concurrent.run (soloSchedule n) (Concurrent.start sm) =
      { sm := { sm with sessID := (sm.sessID + n) % uint64Size }
        sessIDLk := false
        callers := fun t =>
          if t < n then
            { pc := GetNextSessionID.PC.returned
              tmp := (sm.sessID + t) % uint64Size
              ret := (sm.sessID + t + 1) % uint64Size
              ticket := t + 1 }
          else { pc := GetNextSessionID.PC.lock, tmp := 0, ret := 0, ticket := 0 }
        acquired := n } := by
  induction n with
  | zero =>
    simp only [soloSchedule, Concurrent.run, List.foldl_nil, Concurrent.start, Nat.add_zero,
      Nat.mod_eq_of_lt hb, Nat.not_lt_zero, if_false]
  | succ n ih =>
    have hrun : Concurrent.run (soloSchedule (n + 1)) (Concurrent.start sm) =
        Concurrent.run (List.replicate 5 n)
          (Concurrent.run (soloSchedule n) (Concurrent.start sm)) := by
      simp only [soloSchedule, Concurrent.run, List.foldl_append]
    rw [hrun, ih]
    simp only [Concurrent.run, List.replicate, List.foldl_cons, List.foldl_nil, Concurrent.step,
      Nat.lt_irrefl, if_false, Function.update_same, Bool.false_eq_true]
    congr 1
    · congr 1
      rw [Nat.mod_add_mod, Nat.add_assoc]
    · funext t
      by_cases htn : t = n
      · subst htn
        simp only [Function.update_same, Nat.lt_succ_self, if_true]
        rw [Nat.mod_add_mod]
      · by_cases hlt : t < n
        · have hlt1 : t < n + 1 := by omega
          simp only [Function.update_noteq htn, Function.update_idem, hlt, hlt1, if_true]
        · have hlt1 : ¬ t < n + 1 := by omega
          simp only [Function.update_noteq htn, Function.update_idem, hlt, hlt1, if_false]

/-- C11 as stated fails once the counter wraps: when `2 ^ 64 + 1` callers run
`GetNextSessionID` on the fresh example manager one after the other, caller 0 and caller
`2 ^ 64` have both returned, and both have received 1. -/
theorem GetNextSessionID_concurrent_counterexample :
    ((Concurrent.run (soloSchedule (2 ^ 64 + 1)) (Concurrent.start demoManager)).callers 0).pc =
        GetNextSessionID.PC.returned ∧
      ((Concurrent.run (soloSchedule (2 ^ 64 + 1))
        (Concurrent.start demoManager)).callers (2 ^ 64)).pc = GetNextSessionID.PC.returned ∧
      ((Concurrent.run (soloSchedule (2 ^ 64 + 1)) (Concurrent.start demoManager)).callers 0).ret
        = 1 ∧
      ((Concurrent.run (soloSchedule (2 ^ 64 + 1))
        (Concurrent.start demoManager)).callers (2 ^ 64)).ret = 1 := by
  have hb : demoManager.sessID < uint64Size := by
    have h0 : demoManager.sessID = 0 := rfl
    rw [h0]
    norm_num [uint64Size]
  have h0 : demoManager.sessID = 0 := rfl
  rw [run_soloSchedule demoManager hb (2 ^ 64 + 1)]
  have hlt0 : (0 : Nat) < 2 ^ 64 + 1 := by norm_num
  have hlt1 : (2 ^ 64 : Nat) < 2 ^ 64 + 1 := by norm_num
  simp only [hlt0, hlt1, if_true, h0]
  norm_num [uint64Size]

end Theorems

end sessionmanager
